import Mathlib

/-!
# Verification of the irc.ts client engine

Shallow embedding of the core of the `cshaa/irc.ts` repository:
the message parser (`src/parse_message.ts`), the line-framing data handler,
the NICK / TOPIC / PART / KICK branches of the raw-message dispatcher,
`chanData`, the reconnect policy of the `close` listener, the long-line
splitter `_splitLongLines`, and the `CyclingPingTimer` watchdog
(`cycling_ping_timer.ts`).

Strings are modelled as `String` / `List Char` (JavaScript UTF-16 code units
are identified with code points; no claim involves astral characters).
JavaScript exceptions (`TypeError` on dereferencing `undefined` / `null`)
are modelled by `Option`-valued results, `none` standing for a throw.
-/

namespace IrcTs

/-- JS `\s` (whitespace class), restricted to the ASCII whitespace
characters that can occur on an IRC line. -/
def jsWs (c : Char) : Bool :=
  c = ' ' || c = '\t' || c = '\n' || c = '\r' || c = '\x0b' || c = '\x0c'

/-- The character class `[_a-zA-Z0-9\~\[\]\\`^{}|-]` used by
`parse_message.ts` for the nick part of a message source. -/
def isNickChar (c : Char) : Bool :=
  c = '_' || c.isAlpha || c.isDigit || c = '~' || c = '[' || c = ']' ||
  c = '\\' || c = '`' || c = '^' || c = '\x7b' || c = '\x7d' || c = '|' || c = '-'

/-- JS `String.prototype.toLowerCase`, restricted to ASCII (channel names
and nicks in this protocol are ASCII). -/
def lowerChar (c : Char) : Char :=
  if 'A' ≤ c ∧ c ≤ 'Z' then Char.ofNat (c.toNat + 32) else c

/-- JS `toLowerCase` on strings (ASCII fragment). -/
def lowerStr (s : String) : String :=
  ⟨s.data.map lowerChar⟩

/-- JS object property read: first binding of a key in an association list
(`undefined`, i.e. `none`, when absent). -/
def getKey (m : List (String × α)) (k : String) : Option α :=
  (m.find? (fun p => p.1 = k)).map (·.2)

/-- JS object property write: overwrite an existing binding in place,
append a fresh binding otherwise (JS objects keep insertion order). -/
def setKey (m : List (String × α)) (k : String) (v : α) : List (String × α) :=
  if m.any (fun p => p.1 = k) then
    m.map (fun p => if p.1 = k then (k, v) else p)
  else
    m ++ [(k, v)]

/-- JS `delete obj[k]`. -/
def delKey (m : List (String × α)) (k : String) : List (String × α) :=
  m.filter (fun p => p.1 ≠ k)

/-! ## The message parser (`src/parse_message.ts`) -/

/-- `commandType` of a parsed message. -/
inductive CommandType where
  | normal | reply | error
deriving DecidableEq, Repr

/-- One entry of the numeric/command lookup table (`replyFor` in
`codes.ts`): symbolic name and classification. -/
structure ReplyEntry where
  name : String
  type : CommandType
deriving DecidableEq, Repr

/-- A parsed IRC message (`IMessage`).  `pfx` is the `prefix` field of the
source (renamed: `prefix` is a reserved word in Lean).  Missing fields are
`none` (JS `undefined`). -/
structure IMessage where
  pfx : Option String := none
  nick : Option String := none
  user : Option String := none
  host : Option String := none
  server : Option String := none
  command : String
  rawCommand : String
  commandType : CommandType
  args : List String
deriving DecidableEq, Repr

/-- The prefix match `line.match(/^:([^ ]+) +/)`, together with the
`line.replace(/^:[^ ]+ +/, "")` that removes it: on success returns the
captured prefix (maximal run of non-space characters after the colon,
which must be followed by at least one space) and the rest of the line
with all those spaces removed. -/
def parsePfx (l : List Char) : Option (List Char × List Char) :=
  match l with
  | ':' :: rest =>
    let p := rest.takeWhile (fun c => c ≠ ' ')
    let r := rest.dropWhile (fun c => c ≠ ' ')
    if p.isEmpty || r.isEmpty then none
    else some (p, r.dropWhile (fun c => c = ' '))
  | _ => none

/-- The source-classification match
`/^([_a-zA-Z0-9\~\[\]\\`^{}|-]*)(!([^@]+)@(.*))?$/` on a captured prefix:
`some (nick, user?, host?)` when the whole prefix matches (the optional
group present exactly when the prefix has the `nick!user@host` shape),
`none` when it does not match (the prefix is then used as `server`). -/
def splitUserHost (p : List Char) :
    Option (List Char × Option (List Char) × Option (List Char)) :=
  let nick := p.takeWhile isNickChar
  let rest := p.dropWhile isNickChar
  match rest with
  | [] => some (nick, none, none)
  | '!' :: afterBang =>
    let user := afterBang.takeWhile (fun c => c ≠ '@')
    let rest2 := afterBang.dropWhile (fun c => c ≠ '@')
    if user.isEmpty then none
    else
      match rest2 with
      | '@' :: host => some (nick, some user, some host)
      | _ => none
  | _ => none

theorem dropWhile_len_le (p : α → Bool) (l : List α) :
    (l.dropWhile p).length ≤ l.length := by
  induction l with
  | nil => simp
  | cons a l ih =>
    by_cases h : p a
    · rw [List.dropWhile_cons_of_pos h]
      exact Nat.le_succ_of_le ih
    · rw [List.dropWhile_cons_of_neg h]

mutual

/-- JS `middle.split(/ +/)`: split on maximal runs of spaces; a leading
or trailing run produces an empty fragment.  (`splitSpacesSkip` consumes
the remainder of a separator run.) -/
def splitSpaces : List Char → List (List Char)
  | [] => [[]]
  | ' ' :: rest => [] :: splitSpacesSkip rest
  | c :: rest => (splitSpaces rest).modifyHead (fun t => c :: t)

/-- The state of `split(/ +/)` right after a space: further spaces extend
the same separator run. -/
def splitSpacesSkip : List Char → List (List Char)
  | [] => [[]]
  | ' ' :: rest => splitSpacesSkip rest
  | c :: rest => (splitSpaces rest).modifyHead (fun t => c :: t)

end

/-- The scan for `\s+:` inside the parameter section: finds the earliest
position where a maximal whitespace run is immediately followed by `:`
(this is where the lazy-group regex `/(.*?)(?:^:|\s+:)(.*)/` cuts), and
returns everything before the run and everything after the colon. -/
def wsColonSplit : List Char → Option (List Char × List Char)
  | [] => none
  | c :: rest =>
    if jsWs c then
      match (c :: rest).dropWhile jsWs with
      | ':' :: tr => some ([], tr)
      | _ => (wsColonSplit rest).map (fun p => (c :: p.1, p.2))
    else
      (wsColonSplit rest).map (fun p => (c :: p.1, p.2))
termination_by structural l => l

/-- The parameter split of `parse_message.ts`: the regex
`/(.*?)(?:^:|\s+:)(.*)/` applied when `line.search(/^:|\s+:/)` succeeds.
Returns `(middle, trailing)`, `none` when no such colon exists. -/
def splitParams (l : List Char) : Option (List Char × List Char) :=
  match l with
  | ':' :: tr => some ([], tr)
  | _ => wsColonSplit l

/-- The command/parameter tail of `parseMessage`, after the prefix (if any)
has been removed: extracts `rawCommand` (`/^([^ ]+) */`; the match is
`null` on a line with no leading non-space character and the source then
throws a `TypeError`, modelled as `none`), removes it together with the
following spaces (`line.replace(/^[^ ]+ +/, "")` — note the `+`: when no
space follows, the line is left unchanged and the command token is parsed
again as a parameter), normalizes the command through the lookup table,
and splits the parameters into `middle` args and an optional trailing
arg. -/
def parseRest (replyFor : String → Option ReplyEntry)
    (pfx nick user host server : Option String) (l : List Char) :
    Option IMessage :=
  let tok := l.takeWhile (fun c => c ≠ ' ')
  if tok.isEmpty then none
  else
    let r := l.dropWhile (fun c => c ≠ ' ')
    let l2 := if r.isEmpty then l else r.dropWhile (fun c => c = ' ')
    let rawCommand := String.mk tok
    let ct : String × CommandType :=
      match replyFor rawCommand with
      | some e => (e.name, e.type)
      | none => (rawCommand, CommandType.normal)
    let mt : List Char × Option (List Char) :=
      match splitParams l2 with
      | some (m, t) => (m, some t)
      | none => (l2, none)
    let args0 : List String :=
      if mt.1.isEmpty then [] else (splitSpaces mt.1).map String.mk
    let args : List String :=
      match mt.2 with
      | some t => if t.isEmpty then args0 else args0 ++ [String.mk t]
      | none => args0
    some { pfx := pfx, nick := nick, user := user, host := host,
           server := server, command := ct.1, rawCommand := rawCommand,
           commandType := ct.2, args := args }

/-- `parseMessage(line, stripColors)` from `src/parse_message.ts`,
parameterized by the numeric/command lookup table (`replyFor` from
`codes.ts`, which is not part of the analysed sources) and specialized to
`stripColors = false` (color/style stripping is a pure external text
filter, out of scope per the specification; every execution path relevant
to the claims runs with color stripping disabled, the default).
`none` models the `TypeError` the source throws when the command match
`line.match(/^([^ ]+) *)` is `null` (line empty or starting with a
space). -/
def parseMessageWith (replyFor : String → Option ReplyEntry)
    (line : String) : Option IMessage :=
  let l0 := line.data
  match parsePfx l0 with
  | none => parseRest replyFor none none none none none l0
  | some (p, rest) =>
    let pfxS := String.mk p
    match splitUserHost p with
    | some (n, u, h) =>
      parseRest replyFor (some pfxS) (some (String.mk n))
        (u.map String.mk) (h.map String.mk) none rest
    | none =>
      parseRest replyFor (some pfxS) none none none (some pfxS) rest

/-- Modelled from the spec: the static numeric/command table `replyFor`
of `codes.ts`, which is absent from the analysed sources.  Per §6 it maps
a raw command token (word or 3-digit numeric) to a symbolic name and a
classification `normal | reply | error`; the entries below are the ones
the spec itself names (registration, nick collision, SASL success, and
representative reply/error numerics). -/
def replyFor (tok : String) : Option ReplyEntry :=
  if tok = "001" then some ⟨"rpl_welcome", .reply⟩
  else if tok = "005" then some ⟨"rpl_isupport", .reply⟩
  else if tok = "331" then some ⟨"rpl_notopic", .reply⟩
  else if tok = "332" then some ⟨"rpl_topic", .reply⟩
  else if tok = "372" then some ⟨"rpl_motd", .reply⟩
  else if tok = "376" then some ⟨"rpl_endofmotd", .reply⟩
  else if tok = "401" then some ⟨"err_nosuchnick", .error⟩
  else if tok = "422" then some ⟨"err_nomotd", .error⟩
  else if tok = "433" then some ⟨"err_nicknameinuse", .error⟩
  else none

/-- `parseMessage` with the (spec-modelled) concrete table. -/
def parseMessage (line : String) : Option IMessage :=
  parseMessageWith replyFor line

/-! ## Line framing (`handleData` inside `Client.connect`) -/

/-- JS `buffer.split(/\r\n|\r|\n/)` (the `lineDelimiter` regex; the
alternation tries `\r\n` first). -/
def splitLines : List Char → List (List Char)
  | [] => [[]]
  | '\r' :: '\n' :: rest => [] :: splitLines rest
  | '\r' :: rest => [] :: splitLines rest
  | '\n' :: rest => [] :: splitLines rest
  | c :: rest => (splitLines rest).modifyHead (fun t => c :: t)

/-- The `lines.forEach` loop of `handleData`: parse and emit every line of
non-zero length, in order.  The returned flag records whether
`parseMessage` threw (which aborts the iteration; messages emitted before
the throw are kept). -/
def emitAll : List (List Char) → List IMessage × Bool
  | [] => ([], false)
  | l :: rest =>
    if l.length = 0 then emitAll rest
    else
      match parseMessage (String.mk l) with
      | none => ([], true)
      | some m =>
        let p := emitAll rest
        (m :: p.1, p.2)

/-- The per-chunk data handler of `Client.connect` (`handleData`): append
the chunk to the connection buffer, split on line delimiters, and
`lines.pop()`: when the popped final fragment is non-empty (truthy), the
handler returns at once — nothing is parsed or emitted and the buffer
keeps the entire accumulated text; otherwise the buffer is reset to empty
and every remaining line of non-zero length is parsed and emitted as a
`raw` event.  Result: (new buffer, emitted messages, parser-throw flag).
(`convertEncoding` is the identity here: `opt.encoding` is `false` by
default and no claim concerns re-encoding; the `notifyOfActivity` call is
part of the ping-timer model below.) -/
def handleData (buffer chunk : String) : String × List IMessage × Bool :=
  let buf := buffer ++ chunk
  let lines := splitLines buf.data
  if (lines.getLastD []).length ≠ 0 then
    (buf, [], false)
  else
    let p := emitAll lines.dropLast
    ("", p.1, p.2)

/-- Whether a char list is empty or ends with `\r` or `\n` — the
characterization of "the split's final fragment is empty". -/
def endsWithNL (l : List Char) : Bool :=
  match l.getLast? with
  | none => true
  | some c => c = '\r' || c = '\n'

/-! ## Channel state and the dispatcher branches (`Client`) -/

/-- One entry of `this.chans`, as built by `chanData(name, true)`.
`users` maps a nick to its status-character string; a value `none` models
a JS `undefined` stored under the key (which the NICK branch can create).
`topic`/`topicBy`/`created` are absent until assigned. -/
structure ChannelRec where
  key : String
  serverName : String
  users : List (String × Option String) := []
  modeParams : List (Char × List String) := []
  mode : String := ""
  topic : Option String := none
  topicBy : Option String := none
  created : Option String := none
deriving DecidableEq, Repr

/-- The client state touched by the claims: local nick, host mask,
maximum line length, and the channel map `this.chans` (insertion-ordered,
as a JS object). -/
structure ClientState where
  nick : String
  hostMask : String := ""
  maxLineLength : Int := 200
  chans : List (String × ChannelRec) := []
deriving DecidableEq, Repr

/-- `Client.chanData(name, create)`: look up (and, when `create` is set
and the key is absent, insert a fresh record for) the channel under its
lower-cased name.  Returns the possibly-extended map and the record found
under the lower-cased key. -/
def chanData (chans : List (String × ChannelRec)) (name : String)
    (create : Bool) : List (String × ChannelRec) × Option ChannelRec :=
  let key := lowerStr name
  let chans' :=
    if create then
      match getKey chans key with
      | some _ => chans
      | none => setKey chans key { key := key, serverName := name }
    else chans
  (chans', getKey chans' key)

/-- Well-formedness of `this.chans`, as maintained by the code (entries
are only ever created by `chanData(name, true)`): every map key is a
`toLowerCase` fixpoint, coincides with the record's `key` field, and
occurs once. -/
def ChansWF : List (String × ChannelRec) → Bool
  | [] => true
  | (k, ch) :: rest =>
    (lowerStr k == k) && (ch.key == k) &&
      rest.all (fun p => p.1 != k) && ChansWF rest

/-- At most one entry per case-insensitive channel name. -/
def ciUniqueB : List (String × ChannelRec) → Bool
  | [] => true
  | (k, _) :: rest =>
    rest.all (fun p => lowerStr p.1 != lowerStr k) && ciUniqueB rest

/-- `this.maxLineLength = 497 - this.nick.length - this.hostMask.length`
(`Client._updateMaxLineLength`). -/
def updateMaxLineLength (st : ClientState) : ClientState :=
  { st with maxLineLength := 497 - (st.nick.length : Int) - (st.hostMask.length : Int) }

/-- The payload of the single `nick` event the NICK branch emits:
old nick, new nick, and the channel list it pushed. -/
structure NickEvent where
  oldNick : String
  newNick : String
  channels : List String
deriving DecidableEq, Repr

/-- The `NICK` case of the raw-message listener: when the message's nick
is the local nick, adopt the new nick and recompute the maximum line
length; then, for EVERY key of `this.chans` (the loop does not test
membership), assign `channel.users[newNick] = channel.users[oldNick]`
(the JS `undefined` — modelled `none` — when the old nick is absent),
delete `channel.users[oldNick]`, and push the channel name; finally emit
one `nick` event with the pushed list. -/
def handleNICK (st : ClientState) (msgNick newNick : String) :
    ClientState × NickEvent :=
  let st1 :=
    if msgNick = st.nick then
      updateMaxLineLength { st with nick := newNick }
    else st
  let chans' := st1.chans.map (fun p =>
    let ch := p.2
    let v : Option String := (getKey ch.users msgNick).join
    (p.1, { ch with users := delKey (setKey ch.users newNick v) msgNick }))
  ({ st1 with chans := chans' },
   { oldNick := msgNick, newNick := newNick,
     channels := st1.chans.map (fun p => p.1) })

/-- The state-mutating part of the `TOPIC` case of the raw-message
listener: look the channel up through `chanData` and, when present, set
its topic and topic-setter.  (The `topic` event is emitted regardless and
carries the message fields verbatim; it does not touch state.) -/
def handleTOPIC (chans : List (String × ChannelRec))
    (chanName topic : String) (msgNick : Option String) :
    List (String × ChannelRec) :=
  match (chanData chans chanName false).2 with
  | some ch =>
    setKey chans ch.key { ch with topic := some topic, topicBy := msgNick }
  | none => chans

/-- The state-mutating part of the `PART` case of the raw-message
listener.  When the parting nick is the local nick the code runs
`delete this.chans[channel.key]` on the result of a plain `chanData`
lookup — dereferencing `undefined` and throwing a `TypeError` (modelled
`none`) when the channel is unknown.  The other-user branch is protected
by the `channel && channel.users` guard and never throws. -/
def handlePART (st : ClientState) (msgNick chanName : String) :
    Option ClientState :=
  if st.nick = msgNick then
    match (chanData st.chans chanName false).2 with
    | none => none
    | some ch => some { st with chans := delKey st.chans ch.key }
  else
    match (chanData st.chans chanName false).2 with
    | some ch =>
      let ch' := { ch with users := delKey ch.users msgNick }
      some { st with chans := setKey st.chans ch.key ch' }
    | none => some st

/-- The state-mutating part of the `KICK` case of the raw-message
listener; same shape as `PART` with the kicked nick in `args[1]`. -/
def handleKICK (st : ClientState) (chanName kickedNick : String) :
    Option ClientState :=
  if st.nick = kickedNick then
    match (chanData st.chans chanName false).2 with
    | none => none
    | some ch => some { st with chans := delKey st.chans ch.key }
  else
    match (chanData st.chans chanName false).2 with
    | some ch =>
      let ch' := { ch with users := delKey ch.users kickedNick }
      some { st with chans := setKey st.chans ch.key ch' }
    | none => some st

/-! ## Reconnect policy (the `close` listener in `Client.connect`) -/

/-- What the `close` listener does. -/
inductive CloseAction where
  | ignored
  | abort (cap : Int)
  | reconnect (nextAttempt : Nat)
deriving DecidableEq, Repr

/-- The `close` listener of `Client.connect`: a caller-requested
disconnect is ignored; otherwise, when a retry cap is configured
(`opt.retryCount !== null`) and the current attempt count has reached it,
emit `abort` carrying the cap; otherwise schedule `connect(retryCount+1)`
after the retry delay. -/
def handleClose (retryCount : Option Int) (requestedDisconnect : Bool)
    (attempt : Nat) : CloseAction :=
  if requestedDisconnect then .ignored
  else
    match retryCount with
    | some cap => if (attempt : Int) ≥ cap then .abort cap else .reconnect (attempt + 1)
    | none => .reconnect (attempt + 1)

/-- `n` consecutive non-requested socket closes starting at the given
attempt count: each `reconnect` feeds its incremented attempt count into
the next close; an `abort` (or `ignored`) schedules no reconnect, so no
further connection — and hence no further close — can occur. -/
def closeActions (retryCount : Option Int) : Nat → Nat → List CloseAction
  | _, 0 => []
  | attempt, n + 1 =>
    match handleClose retryCount false attempt with
    | .reconnect k => .reconnect k :: closeActions retryCount k n
    | act => [act]

/-- Whether a close action schedules a reconnect. -/
def CloseAction.isReconnect : CloseAction → Bool
  | .reconnect _ => true
  | _ => false

/-- Whether a close action is an abort. -/
def CloseAction.isAbort : CloseAction → Bool
  | .abort _ => true
  | _ => false

/-! ## The long-line splitter (`Client._splitLongLines`) -/

/-- The backward whitespace scan of `_splitLongLines`: starting at
`maxLength - 1` and stopping before index `0` (the loop condition is
`maxLength - offset > 0`), return the largest index `≤ i` holding a
whitespace character, if any. -/
def findWsBack (words : List Char) : Nat → Option Nat
  | 0 => none
  | i + 1 =>
    if jsWs (words.getD (i + 1) ' ') then some (i + 1)
    else findWsBack words i

theorem findWsBack_pos (words : List Char) :
    ∀ i k, findWsBack words i = some k → 0 < k := by
  intro i
  induction i with
  | zero => intro k h; simp [findWsBack] at h
  | succ i ih =>
    intro k h
    unfold findWsBack at h
    split at h
    · cases h; omega
    · exact ih k h

/-- The cut position and dropped-whitespace length chosen by
`_splitLongLines` for an over-long text: `(cutPos, wsLength)`. -/
def cutPosOf (words : List Char) (m : Nat) : Nat × Nat :=
  if jsWs (words.getD m ' ') then (m, 1)
  else
    match findWsBack words (m - 1) with
    | some k => (k, 1)
    | none => (m, 0)

theorem cutPosOf_pos (words : List Char) (m : Nat) (hm : 0 < m) :
    0 < (cutPosOf words m).1 + (cutPosOf words m).2 := by
  unfold cutPosOf
  split
  · simp
  · rename_i h
    rcases hf : findWsBack words (m - 1) with _ | k
    · simp [hf]; omega
    · have := findWsBack_pos words (m - 1) k hf
      simp [hf]

/-- `maxLength || 450`: JS replaces a falsy (zero) limit by 450. -/
def orDefault (maxLength : Nat) : Nat :=
  if maxLength = 0 then 450 else maxLength

theorem orDefault_pos (maxLength : Nat) : 0 < orDefault maxLength := by
  unfold orDefault; split <;> omega

/-- `Client._splitLongLines(words, maxLength, destination)`: if the text
fits, push it whole; otherwise cut at the boundary when the character
there is whitespace (dropping it), else at the nearest earlier whitespace
(dropping it), else hard-cut at the boundary (dropping nothing); recurse
on the remainder.  `maxLength || 450` replaces a zero limit by 450. -/
def _splitLongLines (words : List Char) (maxLength : Nat)
    (destination : List (List Char)) : List (List Char) :=
  if words.length = 0 then destination
  else if words.length ≤ orDefault maxLength then destination ++ [words]
  else
    let cut := cutPosOf words (orDefault maxLength)
    _splitLongLines (words.drop (cut.1 + cut.2)) maxLength
      (destination ++ [words.take cut.1])
termination_by words.length
decreasing_by
  simp only [List.length_drop]
  have h1 := cutPosOf_pos words (orDefault maxLength) (orDefault_pos maxLength)
  omega

/-- Instrumented variant of `_splitLongLines`: the same cuts, each chunk
paired with whether the cut that ended it dropped a whitespace character
(`wsLength = 1`).  The last chunk carries `false`. -/
def splitLongKinds (words : List Char) (maxLength : Nat) :
    List (List Char × Bool) :=
  if words.length = 0 then []
  else if words.length ≤ orDefault maxLength then [(words, false)]
  else
    let cut := cutPosOf words (orDefault maxLength)
    (words.take cut.1, cut.2 = 1) ::
      splitLongKinds (words.drop (cut.1 + cut.2)) maxLength
termination_by words.length
decreasing_by
  simp only [List.length_drop]
  have h1 := cutPosOf_pos words (orDefault maxLength) (orDefault_pos maxLength)
  omega

/-- Rejoin chunks, re-inserting a single space at each cut that dropped a
whitespace character. -/
def rejoinChunks : List (List Char × Bool) → List Char
  | [] => []
  | (c, ws) :: rest => c ++ (if ws then [' '] else []) ++ rejoinChunks rest

/-- Two texts of the same length whose characters agree except that at
some positions both hold (possibly different) whitespace characters.
Rejoining the splitter's chunks produces such a sibling of the original
text: each dropped whitespace character comes back as a single space. -/
inductive SameShape : List Char → List Char → Prop where
  | nil : SameShape [] []
  | consEq (c : Char) {l1 l2 : List Char} :
      SameShape l1 l2 → SameShape (c :: l1) (c :: l2)
  | consWs {c d : Char} {l1 l2 : List Char} :
      jsWs c = true → jsWs d = true →
      SameShape l1 l2 → SameShape (c :: l1) (d :: l2)

/-- Split a text at every whitespace character (fragments between
consecutive whitespace characters are empty). -/
def splitOnWs : List Char → List (List Char)
  | [] => [[]]
  | c :: rest =>
    if jsWs c then [] :: splitOnWs rest
    else (splitOnWs rest).modifyHead (fun t => c :: t)

/-- The word sequence of a text: maximal whitespace-free fragments. -/
def wordsOf (l : List Char) : List (List Char) :=
  (splitOnWs l).filter (fun w => ¬w.isEmpty)

/-! ## The ping watchdog (`CyclingPingTimer`) -/

/-- The state of a `CyclingPingTimer`: the `started` flag and the two
timeouts, each modelled by its absolute deadline when armed.  (The source
stores runtime timer handles; an armed `setTimeout` scheduled at time `t`
with delay `d` fires at `t + d`.) -/
structure CyclingPingTimer where
  started : Bool := false
  loopingTimeout : Option Nat := none
  pingWaitTimeout : Option Nat := none
deriving DecidableEq, Repr

/-- A freshly constructed timer: stopped, nothing armed. -/
def initTimer : CyclingPingTimer := {}

/-- The signals the timer emits. -/
inductive Sig where
  | wantPing
  | pingTimeout
deriving DecidableEq, Repr

/-- `stop()`: a no-op unless started; otherwise clear the flag and both
timeouts. -/
def CyclingPingTimer.stop (tm : CyclingPingTimer) : CyclingPingTimer :=
  if !tm.started then tm
  else { started := false, loopingTimeout := none, pingWaitTimeout := none }

/-- `start()` called at time `now` with the configured idle delay
(`opt.millisecondsOfSilenceBeforePingSent`): a no-op when already
started; otherwise set the flag and arm the idle timeout. -/
def CyclingPingTimer.start (silenceMs now : Nat) (tm : CyclingPingTimer) :
    CyclingPingTimer :=
  if tm.started then tm
  else { tm with started := true, loopingTimeout := some (now + silenceMs) }

/-- `notifyOfActivity()` at time `now`: `stop(); start()` when started. -/
def CyclingPingTimer.notifyOfActivity (silenceMs now : Nat)
    (tm : CyclingPingTimer) : CyclingPingTimer :=
  if tm.started then (tm.stop).start silenceMs now
  else tm

/-- The idle (`loopingTimeout`) callback firing at time `t`: clear the
handle and emit `wantPing`; the constructor's `wantPing` subscription
then arms the ping-wait timeout with delay
`opt.millisecondsBeforePingTimeout`. -/
def CyclingPingTimer.fireWantPing (timeoutMs t : Nat)
    (tm : CyclingPingTimer) : CyclingPingTimer :=
  { tm with loopingTimeout := none, pingWaitTimeout := some (t + timeoutMs) }

/-- The ping-wait callback: the fired timeout is no longer armed; the
callback runs `stop()` and emits `pingTimeout`. -/
def CyclingPingTimer.firePingTimeout (tm : CyclingPingTimer) :
    CyclingPingTimer :=
  CyclingPingTimer.stop { tm with pingWaitTimeout := none }

/-- Let time pass until `target`, firing due timeouts in deadline order
(at most one timeout is ever armed, so this is deterministic; firing the
idle timeout can arm the ping-wait timeout, which may itself become due
before `target`).  Returns the state and the emitted signals with their
times. -/
def advance (timeoutMs : Nat) (tm : CyclingPingTimer) (target : Nat) :
    CyclingPingTimer × List (Nat × Sig) :=
  match tm.loopingTimeout with
  | some d =>
    if d ≤ target then
      let tm1 := tm.fireWantPing timeoutMs d
      match tm1.pingWaitTimeout with
      | some d2 =>
        if d2 ≤ target then (tm1.firePingTimeout, [(d, .wantPing), (d2, .pingTimeout)])
        else (tm1, [(d, .wantPing)])
      | none => (tm1, [(d, .wantPing)])
    else (tm, [])
  | none =>
    match tm.pingWaitTimeout with
    | some d =>
      if d ≤ target then (tm.firePingTimeout, [(d, .pingTimeout)])
      else (tm, [])
    | none => (tm, [])

/-- The operations a client performs on its timer. -/
inductive Cmd where
  | start
  | stop
  | activity
deriving DecidableEq, Repr

/-- Apply one operation at time `t`. -/
def applyCmd (silenceMs t : Nat) (tm : CyclingPingTimer) : Cmd → CyclingPingTimer
  | .start => tm.start silenceMs t
  | .stop => tm.stop
  | .activity => tm.notifyOfActivity silenceMs t

/-- Run a timed trace of operations (times are expected nondecreasing),
firing due timeouts before each operation and finally up to `horizon`. -/
def run (silenceMs timeoutMs : Nat) (tm : CyclingPingTimer) :
    List (Nat × Cmd) → Nat → CyclingPingTimer × List (Nat × Sig)
  | [], horizon => advance timeoutMs tm horizon
  | (t, c) :: rest, horizon =>
    let p1 := advance timeoutMs tm t
    let tm2 := applyCmd silenceMs t p1.1 c
    let p2 := run silenceMs timeoutMs tm2 rest horizon
    (p2.1, p1.2 ++ p2.2)

/-- The structural timer invariant: when not started nothing is armed,
and the two timeouts are never armed simultaneously. -/
def timerInv (tm : CyclingPingTimer) : Bool :=
  (tm.started || (tm.loopingTimeout.isNone && tm.pingWaitTimeout.isNone)) &&
  !(tm.loopingTimeout.isSome && tm.pingWaitTimeout.isSome)

/-- A chain of activity times: strictly increasing, each occurring before
the idle deadline set by the previous event. -/
def chainOk (silenceMs : Nat) : Nat → List Nat → Prop
  | _, [] => True
  | prev, t :: rest => prev < t ∧ t < prev + silenceMs ∧ chainOk silenceMs t rest

instance (silenceMs prev : Nat) (l : List Nat) :
    Decidable (chainOk silenceMs prev l) := by
  induction l generalizing prev with
  | nil => exact isTrue trivial
  | cons t rest ih =>
    have := ih t
    exact instDecidableAnd

/-- The last element of a time chain. -/
def lastTime (t0 : Nat) : List Nat → Nat
  | [] => t0
  | t :: rest => lastTime t rest

/-! ## Generic list lemmas -/

theorem takeWhile_append_all {p : Char → Bool} {l1 : List Char}
    (h : ∀ c ∈ l1, p c = true) (l2 : List Char) :
    (l1 ++ l2).takeWhile p = l1 ++ l2.takeWhile p := by
  induction l1 with
  | nil => simp
  | cons a t ih =>
    have ha : p a = true := h a (List.mem_cons_self a t)
    simp only [List.cons_append, List.takeWhile_cons, ha, if_true]
    rw [ih (fun c hc => h c (List.mem_cons_of_mem a hc))]

theorem dropWhile_append_all {p : Char → Bool} {l1 : List Char}
    (h : ∀ c ∈ l1, p c = true) (l2 : List Char) :
    (l1 ++ l2).dropWhile p = l2.dropWhile p := by
  induction l1 with
  | nil => simp
  | cons a t ih =>
    have ha : p a = true := h a (List.mem_cons_self a t)
    simp only [List.cons_append, List.dropWhile_cons, ha, if_true]
    exact ih (fun c hc => h c (List.mem_cons_of_mem a hc))

theorem takeWhile_cons_neg {p : Char → Bool} {x : Char} (hx : p x = false)
    (l : List Char) : (x :: l).takeWhile p = [] := by
  simp [List.takeWhile_cons, hx]

theorem dropWhile_cons_neg {p : Char → Bool} {x : Char} (hx : p x = false)
    (l : List Char) : (x :: l).dropWhile p = x :: l := by
  simp [List.dropWhile_cons, hx]

/-- Take/drop over `l1 ++ x :: l2` where every element of `l1` satisfies
`p` and `x` does not. -/
theorem takeWhile_boundary {p : Char → Bool} {l1 : List Char} {x : Char}
    (h : ∀ c ∈ l1, p c = true) (hx : p x = false) (l2 : List Char) :
    (l1 ++ x :: l2).takeWhile p = l1 := by
  rw [takeWhile_append_all h, takeWhile_cons_neg hx, List.append_nil]

theorem dropWhile_boundary {p : Char → Bool} {l1 : List Char} {x : Char}
    (h : ∀ c ∈ l1, p c = true) (hx : p x = false) (l2 : List Char) :
    (l1 ++ x :: l2).dropWhile p = x :: l2 := by
  rw [dropWhile_append_all h, dropWhile_cons_neg hx]

/-! ## C6 — reconnect cap -/

/-- C6: with the retry count configured to 2, three consecutive
non-requested socket closes yield the actions
`[reconnect 1, reconnect 2, abort 2]` — exactly one abort, carrying 2,
with no reconnect scheduled after it; and in general a non-requested
close schedules a reconnect exactly when no cap is configured or the
current attempt count is below the cap. -/
theorem reconnect_cap_policy (cap : Option Int) (rd : Bool) (attempt : Nat) :
    closeActions (some 2) 0 3 = [.reconnect 1, .reconnect 2, .abort 2] ∧
    (closeActions (some 2) 0 3).filter CloseAction.isAbort = [.abort 2] ∧
    (handleClose cap rd attempt).isReconnect =
      (!rd && (match cap with
               | none => true
               | some c => decide ((attempt : Int) < c))) := by
  refine ⟨by decide, by decide, ?_⟩
  cases rd with
  | true => simp [handleClose, CloseAction.isReconnect]
  | false =>
    cases cap with
    | none => simp [handleClose, CloseAction.isReconnect]
    | some c =>
      by_cases h : (attempt : Int) ≥ c
      · simp [handleClose, CloseAction.isReconnect, if_pos h]
        omega
      · simp [handleClose, CloseAction.isReconnect, if_neg h]
        omega

/-! ## C9 — parseMessage on the empty line -/

/-- C9, counterexample: `parseMessage ""` does NOT return normally — the
command match `"".match(/^([^ ]+) *)` is `null` and destructuring it
throws a `TypeError` (modelled: no result), so no message with an empty
`args` sequence is produced. -/
theorem parseMessage_empty_line_throws : (parseMessage "").isSome = false := by
  decide

/-- C9, amended: on the empty line `parseMessage` fails (the source
throws a `TypeError` while extracting the command token) instead of
returning a message without args. -/
theorem parseMessage_empty_line : parseMessage "" = none := by
  decide

/-! ## C10 — PART/KICK of the local user on an unknown channel -/

/-- C10: when a PART names the local user, or a KICK targets the local
user, for a channel with no entry in `this.chans`, the handler
dereferences the missing entry (`channel.key`) and throws a `TypeError`
(modelled: no result); the `channel && channel.users` guard protects only
the branch that removes another user, which ignores the message. -/
theorem part_kick_missing_channel (st : ClientState) (chanName who : String)
    (hmissing : getKey st.chans (lowerStr chanName) = none)
    (hwho : who ≠ st.nick) :
    handlePART st st.nick chanName = none ∧
    handleKICK st chanName st.nick = none ∧
    handlePART st who chanName = some st ∧
    handleKICK st chanName who = some st := by
  have hlook : (chanData st.chans chanName false).2 = none := by
    simp [chanData, hmissing]
  have hne : ¬(st.nick = who) := fun h => hwho h.symm
  refine ⟨?_, ?_, ?_, ?_⟩
  · simp [handlePART, hlook]
  · simp [handleKICK, hlook]
  · simp [handlePART, hlook, hne]
  · simp [handleKICK, hlook, hne]

/-- C10, witness: a concrete client (nick `me`, no known channels). -/
theorem part_kick_missing_channel_witness :
    handlePART { nick := "me" } "me" "#x" = none ∧
    handleKICK { nick := "me" } "#x" "me" = none ∧
    handlePART { nick := "me" } "bob" "#x" = some { nick := "me" } ∧
    handleKICK { nick := "me" } "#x" "bob" = some { nick := "me" } :=
  part_kick_missing_channel { nick := "me" } "#x" "bob" (by decide) (by decide)

/-! ## Association-list and lower-casing lemmas -/

theorem char_ofNat_toNat (n : Nat) (h : n.isValidChar) :
    (Char.ofNat n).val.toNat = n := by
  unfold Char.ofNat
  rw [dif_pos h]
  unfold Char.ofNatAux
  simp [UInt32.toNat]

theorem lowerChar_idem (c : Char) : lowerChar (lowerChar c) = lowerChar c := by
  by_cases h : 'A' ≤ c ∧ c ≤ 'Z'
  · have hAZ : 65 ≤ c.toNat ∧ c.toNat ≤ 90 := ⟨h.1, h.2⟩
    have hv : (c.toNat + 32).isValidChar := by left; omega
    have ht : (Char.ofNat (c.toNat + 32)).toNat = c.toNat + 32 :=
      char_ofNat_toNat _ hv
    have h2 : ¬('A' ≤ Char.ofNat (c.toNat + 32) ∧ Char.ofNat (c.toNat + 32) ≤ 'Z') := by
      intro hcon
      have : (Char.ofNat (c.toNat + 32)).toNat ≤ 90 := hcon.2
      omega
    simp only [lowerChar, if_pos h, if_neg h2]
  · simp only [lowerChar, if_neg h]

theorem lowerStr_idem (s : String) : lowerStr (lowerStr s) = lowerStr s := by
  unfold lowerStr
  simp only [List.map_map]
  congr 1
  exact List.map_congr_left (fun c _ => lowerChar_idem c)

theorem getKey_nil (k : String) : getKey ([] : List (String × α)) k = none := rfl

theorem getKey_cons (p : String × α) (m : List (String × α)) (k : String) :
    getKey (p :: m) k = if p.1 = k then some p.2 else getKey m k := by
  by_cases h : p.1 = k <;> simp [getKey, List.find?_cons, h]

theorem getKey_eq_none_iff (m : List (String × α)) (k : String) :
    getKey m k = none ↔ ∀ p ∈ m, p.1 ≠ k := by
  induction m with
  | nil => simp [getKey]
  | cons q t ih =>
    rw [getKey_cons]
    by_cases h : q.1 = k
    · simp [h]
    · simp [h, ih]

theorem setKey_of_absent (m : List (String × α)) (k : String) (v : α)
    (h : getKey m k = none) : setKey m k v = m ++ [(k, v)] := by
  have hall : ∀ p ∈ m, p.1 ≠ k := (getKey_eq_none_iff m k).1 h
  unfold setKey
  rw [if_neg]
  simp only [List.any_eq_true, not_exists]
  intro p hp
  exact (hall p hp.1) (by simpa using hp.2)

theorem getKey_append (m1 m2 : List (String × α)) (k : String) :
    getKey (m1 ++ m2) k =
      match getKey m1 k with
      | some v => some v
      | none => getKey m2 k := by
  induction m1 with
  | nil => simp [getKey]
  | cons q t ih =>
    by_cases h : q.1 = k
    · simp [getKey_cons, h]
    · simp only [List.cons_append, getKey_cons, if_neg h, ih]

theorem getKey_map_set_ne (t : List (String × α)) (k k' : String) (v : α)
    (h : k' ≠ k) :
    getKey (t.map (fun p => if p.1 = k then (k, v) else p)) k' = getKey t k' := by
  induction t with
  | nil => simp
  | cons q t ih =>
    rw [List.map_cons]
    by_cases hq : q.1 = k
    · rw [if_pos hq, getKey_cons, getKey_cons,
        if_neg (fun hh : (k, v).1 = k' => h (by simpa using hh.symm)),
        if_neg (fun hh : q.1 = k' => h ((hq.symm.trans hh).symm)), ih]
    · rw [if_neg hq, getKey_cons, getKey_cons]
      by_cases hq' : q.1 = k'
      · rw [if_pos hq', if_pos hq']
      · rw [if_neg hq', if_neg hq', ih]

theorem getKey_map_set_self (t : List (String × α)) (k : String) (v : α)
    (h : (t.any fun p => decide (p.1 = k)) = true) :
    getKey (t.map (fun p => if p.1 = k then (k, v) else p)) k = some v := by
  induction t with
  | nil => simp at h
  | cons q t ih =>
    rw [List.map_cons]
    by_cases hq : q.1 = k
    · rw [if_pos hq, getKey_cons, if_pos rfl]
    · rw [if_neg hq, getKey_cons, if_neg hq]
      apply ih
      simp only [List.any_cons, Bool.or_eq_true] at h
      rcases h with h | h
      · exact absurd (by simpa using h) hq
      · exact h

theorem getKey_setKey_self (m : List (String × α)) (k : String) (v : α) :
    getKey (setKey m k v) k = some v := by
  unfold setKey
  split
  · rename_i h
    exact getKey_map_set_self m k v h
  · rename_i h
    rw [getKey_append]
    have hnone : getKey m k = none := by
      rw [getKey_eq_none_iff]
      intro p hp hk
      simp only [List.any_eq_true, not_exists] at h
      exact h p ⟨hp, by simp [hk]⟩
    simp [hnone, getKey_cons]

theorem getKey_setKey_ne (m : List (String × α)) (k k' : String) (v : α)
    (h : k' ≠ k) : getKey (setKey m k v) k' = getKey m k' := by
  unfold setKey
  split
  · exact getKey_map_set_ne m k k' v h
  · rw [getKey_append]
    rcases hg : getKey m k' with _ | v'
    · rw [getKey_cons, if_neg (fun hh : (k, v).1 = k' => h (by simpa using hh.symm))]
      simp [getKey_nil]
    · simp

theorem ChansWF_keys_fix (chans : List (String × ChannelRec))
    (hwf : ChansWF chans = true) :
    ∀ p ∈ chans, lowerStr p.1 = p.1 ∧ p.2.key = p.1 := by
  induction chans with
  | nil => simp
  | cons q t ih =>
    simp only [ChansWF, Bool.and_eq_true, beq_iff_eq] at hwf
    obtain ⟨⟨⟨hfix, hkey⟩, _⟩, hrest⟩ := hwf
    intro p hp
    rcases List.mem_cons.mp hp with rfl | hp
    · exact ⟨hfix, hkey⟩
    · exact ih hrest p hp

theorem ChansWF_getKey_key (chans : List (String × ChannelRec))
    (hwf : ChansWF chans = true) (k : String) (ch : ChannelRec)
    (h : getKey chans k = some ch) : ch.key = k := by
  induction chans with
  | nil => simp [getKey] at h
  | cons q t ih =>
    simp only [ChansWF, Bool.and_eq_true, beq_iff_eq] at hwf
    obtain ⟨⟨⟨_, hkey⟩, _⟩, hrest⟩ := hwf
    rw [getKey_cons] at h
    split at h
    · rename_i hq
      cases h
      rw [hkey, hq]
    · exact ih hrest h

theorem ChansWF_append_fresh (chans : List (String × ChannelRec))
    (k : String) (ch : ChannelRec) (hwf : ChansWF chans = true)
    (habs : ∀ p ∈ chans, p.1 ≠ k) (hfix : lowerStr k = k)
    (hkey : ch.key = k) : ChansWF (chans ++ [(k, ch)]) = true := by
  induction chans with
  | nil => simp [ChansWF, hfix, hkey]
  | cons q t ih =>
    simp only [ChansWF, Bool.and_eq_true, beq_iff_eq] at hwf
    obtain ⟨⟨⟨hf, hk⟩, hdist⟩, hrest⟩ := hwf
    have hq : q.1 ≠ k := habs q (List.mem_cons_self q t)
    simp only [List.cons_append, ChansWF, Bool.and_eq_true, beq_iff_eq]
    refine ⟨⟨⟨hf, hk⟩, ?_⟩, ih hrest (fun p hp => habs p (List.mem_cons_of_mem q hp))⟩
    rw [List.append_eq, List.all_append]
    simp only [List.all_cons, List.all_nil, Bool.and_eq_true, Bool.and_true,
      bne_iff_ne, ne_eq]
    exact ⟨by simpa using hdist, fun hh => hq hh.symm⟩

theorem ChansWF_ciUnique (chans : List (String × ChannelRec))
    (hwf : ChansWF chans = true) : ciUniqueB chans = true := by
  induction chans with
  | nil => rfl
  | cons q t ih =>
    simp only [ChansWF, Bool.and_eq_true, beq_iff_eq] at hwf
    obtain ⟨⟨⟨hfix, _⟩, hdist⟩, hrest⟩ := hwf
    simp only [ciUniqueB, Bool.and_eq_true]
    refine ⟨?_, ih hrest⟩
    simp only [List.all_eq_true] at hdist ⊢
    intro p hp
    have hpfix := (ChansWF_keys_fix t hrest p hp).1
    have hne : p.1 ≠ q.1 := by simpa using hdist p hp
    simp only [bne_iff_ne, ne_eq]
    rw [hpfix, hfix]
    exact hne

/-! ## C7 — case-insensitive channel identity -/

/-- C7: channel state is addressed by lower-cased name at every lookup
and insert.  After a self-JOIN of `n1` (i.e., `chanData(n1, true)`), a
lookup under any name `n2` with the same lower-casing returns the very
entry a lookup under `n1` returns (and it exists); a TOPIC referencing
`n2` mutates the entry seen under `n1`; and the channel map stays
well-formed, with at most one entry per case-insensitive name. -/
theorem chanData_case_insensitive (chans chans1 : List (String × ChannelRec))
    (n1 n2 topic : String) (nk : Option String)
    (hwf : ChansWF chans = true)
    (h12 : lowerStr n1 = lowerStr n2)
    (hc : chans1 = (chanData chans n1 true).1) :
    (chanData chans1 n2 false).2 = (chanData chans1 n1 false).2 ∧
    (chanData chans1 n1 false).2.isSome = true ∧
    ((chanData (handleTOPIC chans1 n2 topic nk) n1 false).2.map
        (fun ch => (ch.topic, ch.topicBy)) = some (some topic, nk)) ∧
    ChansWF chans1 = true ∧
    ciUniqueB chans1 = true := by
  subst hc
  have hidem := lowerStr_idem n1
  have step : ChansWF (chanData chans n1 true).1 = true ∧
      ∃ chX, getKey (chanData chans n1 true).1 (lowerStr n1) = some chX := by
    rcases hg : getKey chans (lowerStr n1) with _ | ch0
    · constructor
      · simp only [chanData, hg]
        rw [setKey_of_absent _ _ _ hg]
        exact ChansWF_append_fresh chans _ _ hwf
          ((getKey_eq_none_iff _ _).1 hg) hidem rfl
      · refine ⟨{ key := lowerStr n1, serverName := n1 }, ?_⟩
        simp only [chanData, hg]
        exact getKey_setKey_self _ _ _
    · constructor
      · simp only [chanData, hg]
        exact hwf
      · refine ⟨ch0, ?_⟩
        simp only [chanData, hg]
        exact hg
  obtain ⟨hwf1, chX, hlook⟩ := step
  have hlook2 : getKey (chanData chans n1 true).1 (lowerStr n2) = some chX := by
    rw [← h12]
    exact hlook
  have hchkey : chX.key = lowerStr n1 :=
    ChansWF_getKey_key _ hwf1 _ _ hlook
  have hfalse2 : ∀ (m : List (String × ChannelRec)) (name : String),
      (chanData m name false).2 = getKey m (lowerStr name) := by
    intro m name
    simp [chanData]
  refine ⟨?_, ?_, ?_, hwf1, ChansWF_ciUnique _ hwf1⟩
  · rw [hfalse2, hfalse2, ← h12]
  · rw [hfalse2, hlook]
    rfl
  · simp only [handleTOPIC]
    rw [hfalse2 _ n2, hlook2]
    simp only [hchkey, hfalse2 _ n1]
    rw [getKey_setKey_self]
    rfl

/-- C7, witness: self-JOIN of `#Foo`, then a TOPIC referencing `#foo`. -/
theorem chanData_case_insensitive_witness :
    (chanData (chanData [] "#Foo" true).1 "#foo" false).2 =
      (chanData (chanData [] "#Foo" true).1 "#Foo" false).2 ∧
    (chanData (chanData [] "#Foo" true).1 "#Foo" false).2.isSome = true ∧
    ((chanData (handleTOPIC (chanData [] "#Foo" true).1 "#foo" "hi" (some "bob"))
        "#Foo" false).2.map (fun ch => (ch.topic, ch.topicBy)) =
      some (some "hi", some "bob")) ∧
    ChansWF (chanData [] "#Foo" true).1 = true ∧
    ciUniqueB (chanData [] "#Foo" true).1 = true :=
  chanData_case_insensitive [] (chanData [] "#Foo" true).1 "#Foo" "#foo" "hi"
    (some "bob") (by decide) (by decide) rfl

/-! ## C3 — the NICK branch -/

theorem getKey_delKey_self (m : List (String × α)) (k : String) :
    getKey (delKey m k) k = none := by
  induction m with
  | nil => rfl
  | cons q t ih =>
    by_cases hq : q.1 = k
    · rw [show delKey (q :: t) k = delKey t k from by
        simp [delKey, List.filter_cons, hq]]
      exact ih
    · rw [show delKey (q :: t) k = q :: delKey t k from by
        simp [delKey, List.filter_cons, hq]]
      rw [getKey_cons, if_neg hq]
      exact ih

theorem getKey_delKey_ne (m : List (String × α)) (k k' : String)
    (h : k' ≠ k) : getKey (delKey m k) k' = getKey m k' := by
  induction m with
  | nil => rfl
  | cons q t ih =>
    by_cases hq : q.1 = k
    · rw [show delKey (q :: t) k = delKey t k from by
        simp [delKey, List.filter_cons, hq]]
      rw [ih, getKey_cons, if_neg (fun hh => h (hh.symm.trans hq))]
    · rw [show delKey (q :: t) k = q :: delKey t k from by
        simp [delKey, List.filter_cons, hq]]
      rw [getKey_cons, getKey_cons, ih]

theorem getKey_map_fst (m : List (String × α)) (f : String × α → String × β)
    (hf : ∀ p, (f p).1 = p.1) (k : String) :
    getKey (m.map f) k =
      (m.find? (fun p => p.1 = k)).map (fun p => (f p).2) := by
  induction m with
  | nil => rfl
  | cons q t ih =>
    rw [List.map_cons, getKey_cons, List.find?_cons, hf q]
    by_cases hq : q.1 = k
    · simp [hq]
    · simp only [hq, if_neg hq]
      rw [if_neg (by simp [hq])]
      exact ih

/-- The channel-map transformation and the event channel list of the
NICK branch, independent of whether the nick was the local one. -/
theorem handleNICK_chans (st : ClientState) (oldN newN : String) :
    (handleNICK st oldN newN).1.chans =
      st.chans.map (fun p =>
        (p.1, { p.2 with
          users := delKey (setKey p.2.users newN ((getKey p.2.users oldN).join)) oldN })) ∧
    (handleNICK st oldN newN).2.channels = st.chans.map (fun p => p.1) := by
  unfold handleNICK
  by_cases hcase : oldN = st.nick <;> simp [hcase, updateMaxLineLength]

/-- C3, counterexample: NICK from `alice` to `alicia` with one known
channel `#a` that does NOT contain `alice`.  The claim requires the
event's channel list to contain exactly the affected channels (here:
none), yet the code emits `["#a"]` — and even creates a spurious
`users["alicia"] = undefined` entry in that channel. -/
theorem handleNICK_unaffected_channel :
    (handleNICK
        { nick := "me",
          chans := [("#a", { key := "#a", serverName := "#a",
                             users := [("bob", some "")] })] }
        "alice" "alicia").2.channels = ["#a"] ∧
    getKey [("bob", some "")] "alice" = (none : Option (Option String)) ∧
    ((getKey (handleNICK
        { nick := "me",
          chans := [("#a", { key := "#a", serverName := "#a",
                             users := [("bob", some "")] })] }
        "alice" "alicia").1.chans "#a").map
      (fun ch => getKey ch.users "alicia")) = some (some none) := by
  refine ⟨by decide, by decide, by decide⟩

/-- C3, amended: on NICK, the local-nick update and line-length
recomputation happen exactly when the old nick is the local nick; but the
migration loop runs over EVERY known channel (not only those containing
the old nick): in each channel the new nick's entry is set to the old
nick's previous value — the JS `undefined` (modelled `none`), i.e. a
spurious entry, when the old nick was absent — and the old nick's entry
is deleted; the single `nick` event lists every known channel. -/
theorem handleNICK_spec (st : ClientState) (oldN newN cname : String)
    (ch : ChannelRec)
    (hch : getKey st.chans cname = some ch)
    (hne : newN ≠ oldN) :
    (oldN = st.nick → (handleNICK st oldN newN).1.nick = newN ∧
        (handleNICK st oldN newN).1.maxLineLength =
          497 - (newN.length : Int) - (st.hostMask.length : Int)) ∧
    (oldN ≠ st.nick → (handleNICK st oldN newN).1.nick = st.nick ∧
        (handleNICK st oldN newN).1.maxLineLength = st.maxLineLength) ∧
    (handleNICK st oldN newN).2.oldNick = oldN ∧
    (handleNICK st oldN newN).2.newNick = newN ∧
    (handleNICK st oldN newN).2.channels = st.chans.map (fun p => p.1) ∧
    ((getKey (handleNICK st oldN newN).1.chans cname).map
        (fun ch' => getKey ch'.users newN) =
      some (some ((getKey ch.users oldN).join))) ∧
    ((getKey (handleNICK st oldN newN).1.chans cname).map
        (fun ch' => getKey ch'.users oldN) = some none) := by
  obtain ⟨hchans, hev⟩ := handleNICK_chans st oldN newN
  have hfound :
      getKey (handleNICK st oldN newN).1.chans cname =
        some { ch with
          users := delKey (setKey ch.users newN ((getKey ch.users oldN).join)) oldN } := by
    rw [hchans]
    rw [getKey_map_fst st.chans
      ((fun p => (p.1, { p.2 with
        users := delKey (setKey p.2.users newN ((getKey p.2.users oldN).join)) oldN })) :
        String × ChannelRec → String × ChannelRec)
      (fun p => rfl) cname]
    unfold getKey at hch
    rcases hf : List.find? (fun p => decide (p.1 = cname)) st.chans with _ | q
    · rw [hf] at hch
      simp at hch
    · rw [hf] at hch
      simp at hch
      rw [hf]
      simp [hch]
  refine ⟨?_, ?_, ?_, ?_, hev, ?_, ?_⟩
  · intro hcase
    constructor <;> simp [handleNICK, hcase, updateMaxLineLength]
  · intro hcase
    constructor <;> simp [handleNICK, hcase, updateMaxLineLength]
  · rfl
  · rfl
  · rw [hfound]
    simp [getKey_delKey_ne _ _ _ hne, getKey_setKey_self]
  · rw [hfound]
    simp [getKey_delKey_self]

/-- The channel record of the C3 witness. -/
def c3Ch : ChannelRec :=
  { key := "#a", serverName := "#a", users := [("bob", some "@")] }

/-- The client state of the C3 witness. -/
def c3St : ClientState :=
  { nick := "bob", hostMask := "h", chans := [("#a", c3Ch)] }

/-- C3, witness: NICK from `bob` (present in `#a` with prefix `@`) to
`bob2`, on a client whose local nick is `bob`. -/
theorem handleNICK_spec_witness :
    ("bob" = c3St.nick → (handleNICK c3St "bob" "bob2").1.nick = "bob2" ∧
        (handleNICK c3St "bob" "bob2").1.maxLineLength =
          497 - ("bob2".length : Int) - (c3St.hostMask.length : Int)) ∧
    ("bob" ≠ c3St.nick → (handleNICK c3St "bob" "bob2").1.nick = c3St.nick ∧
        (handleNICK c3St "bob" "bob2").1.maxLineLength = c3St.maxLineLength) ∧
    (handleNICK c3St "bob" "bob2").2.oldNick = "bob" ∧
    (handleNICK c3St "bob" "bob2").2.newNick = "bob2" ∧
    (handleNICK c3St "bob" "bob2").2.channels = c3St.chans.map (fun p => p.1) ∧
    ((getKey (handleNICK c3St "bob" "bob2").1.chans "#a").map
        (fun ch' => getKey ch'.users "bob2") =
      some (some ((getKey c3Ch.users "bob").join))) ∧
    ((getKey (handleNICK c3St "bob" "bob2").1.chans "#a").map
        (fun ch' => getKey ch'.users "bob") = some none) :=
  handleNICK_spec c3St "bob" "bob2" "#a" c3Ch (by decide) (by decide)

/-! ## C2 — line framing in handleData -/

theorem splitLines_ne_nil (l : List Char) : splitLines l ≠ [] := by
  induction l using splitLines.induct with
  | case1 => simp [splitLines]
  | case2 rest ih => simp [splitLines]
  | case3 rest h ih => simp [splitLines, h]
  | case4 rest ih => simp [splitLines]
  | case5 c rest h1 h2 h3 ih =>
    rw [splitLines]
    · rcases hs : splitLines rest with _ | ⟨y, ys⟩
      · exact absurd hs ih
      · simp [List.modifyHead]
    · exact h1
    · exact h2
    · exact h3

theorem splitLines_singleton (l : List Char) :
    ∀ x, splitLines l = [x] → x = l := by
  induction l using splitLines.induct with
  | case1 =>
    intro x h
    injection h with h1 h2
    exact h1.symm
  | case2 rest ih =>
    intro x h
    rw [splitLines] at h
    injection h with h1 h2
    exact absurd h2 (splitLines_ne_nil rest)
  | case3 rest hcon ih =>
    intro x h
    rw [splitLines] at h
    · injection h with h1 h2
      exact absurd h2 (splitLines_ne_nil rest)
    · exact hcon
  | case4 rest ih =>
    intro x h
    rw [splitLines] at h
    injection h with h1 h2
    exact absurd h2 (splitLines_ne_nil rest)
  | case5 c rest h1 h2 h3 ih =>
    intro x h
    rw [splitLines] at h
    · rcases hs : splitLines rest with _ | ⟨y, ys⟩
      · exact absurd hs (splitLines_ne_nil rest)
      · rw [hs] at h
        simp only [List.modifyHead] at h
        injection h with e1 e2
        subst e2
        rw [← e1, ih y hs]
    · exact h1
    · exact h2
    · exact h3

theorem getLastD_cons_ne (a : List Char) (l : List (List Char))
    (h : l ≠ []) (d : List Char) : (a :: l).getLastD d = l.getLastD d := by
  cases l with
  | nil => exact absurd rfl h
  | cons b t => rfl

theorem endsWithNL_cons (c : Char) (l : List Char) (h : l ≠ []) :
    endsWithNL (c :: l) = endsWithNL l := by
  unfold endsWithNL
  cases l with
  | nil => exact absurd rfl h
  | cons b t => rw [List.getLast?_cons_cons]

/-- The split's final fragment is empty exactly when the accumulated text
is empty or ends with a line terminator. -/
theorem lastFrag_endsWithNL (l : List Char) :
    ((splitLines l).getLastD []).isEmpty = endsWithNL l := by
  induction l using splitLines.induct with
  | case1 => rfl
  | case2 rest ih =>
    rw [splitLines, getLastD_cons_ne _ _ (splitLines_ne_nil rest), ih]
    cases rest with
    | nil => rfl
    | cons a t =>
      rw [endsWithNL_cons '\x0d' ('\n' :: a :: t) (by simp),
        endsWithNL_cons '\n' (a :: t) (by simp)]
  | case3 rest hcon ih =>
    rw [splitLines]
    · rw [getLastD_cons_ne _ _ (splitLines_ne_nil rest), ih]
      cases rest with
      | nil => rfl
      | cons a t => rw [endsWithNL_cons '\x0d' (a :: t) (by simp)]
    · exact hcon
  | case4 rest ih =>
    rw [splitLines, getLastD_cons_ne _ _ (splitLines_ne_nil rest), ih]
    cases rest with
    | nil => rfl
    | cons a t => rw [endsWithNL_cons '\n' (a :: t) (by simp)]
  | case5 c rest h1 h2 h3 ih =>
    rw [splitLines]
    · rcases hs : splitLines rest with _ | ⟨y, ys⟩
      · exact absurd hs (splitLines_ne_nil rest)
      · rw [hs] at ih
        simp only [List.modifyHead]
        cases ys with
        | nil =>
          have hy : y = rest := splitLines_singleton rest y hs
          subst hy
          cases y with
          | nil =>
            simp [endsWithNL, eq_false h2, eq_false h3]
          | cons a t =>
            rw [endsWithNL_cons c (a :: t) (by simp), ← ih]
            rfl
        | cons z zs =>
          rw [getLastD_cons_ne _ _ (by simp)]
          rw [getLastD_cons_ne _ _ (by simp)] at ih
          rw [ih]
          cases rest with
          | nil => simp [splitLines] at hs
          | cons a t => rw [endsWithNL_cons c (a :: t) (by simp)]
    · exact h1
    · exact h2
    · exact h3

/-- A helper for C2: when every complete non-empty line parses, the
`forEach` loop emits exactly the parses of those lines, in order, and
nothing throws. -/
theorem emitAll_eq_mapM (lines : List (List Char)) (ms : List IMessage)
    (h : (lines.filter (fun l => l.length != 0)).mapM
        (fun l => parseMessage (String.mk l)) = some ms) :
    emitAll lines = (ms, false) := by
  induction lines generalizing ms with
  | nil =>
    rw [List.filter_nil, List.mapM_nil] at h
    simp only [Option.pure_def, Option.some.injEq] at h
    rw [emitAll, ← h]
  | cons l rest ih =>
    by_cases h0 : l.length = 0
    · rw [emitAll, if_pos h0]
      rw [List.filter_cons_of_neg (by simpa using h0)] at h
      exact ih ms h
    · rw [emitAll, if_neg h0]
      rw [List.filter_cons_of_pos (by simpa using h0)] at h
      rw [List.mapM_cons] at h
      rcases hpm : parseMessage (String.mk l) with _ | m
      · rw [hpm] at h
        simp at h
      · rw [hpm] at h
        simp only [Option.pure_def, Option.bind_eq_bind, Option.some_bind] at h
        rcases hrest : (rest.filter (fun l => l.length != 0)).mapM
            (fun l => parseMessage (String.mk l)) with _ | ms2
        · rw [hrest] at h
          simp at h
        · rw [hrest] at h
          simp at h
          rw [ih ms2 hrest]
          simp [← h]

/-- C2, counterexample: a chunk holding one complete line and one
incomplete fragment.  The claim requires the complete leading line
`PING :x` to be parsed and emitted and only `PARTIAL` to stay buffered;
the code instead emits nothing and leaves the whole text in the buffer
(the handler returns before the forEach when `lines.pop()` is truthy).
Only when a later chunk completes the final line are both lines parsed
and emitted, from the re-split of the full buffer. -/
theorem handleData_keeps_whole_buffer :
    handleData "" "PING :x\x0d\nPARTIAL" = ("PING :x\x0d\nPARTIAL", [], false) ∧
    handleData "PING :x\x0d\nPARTIAL" "\x0d\n" =
      ("", (parseMessage "PING :x").toList ++ (parseMessage "PARTIAL").toList,
        false) := by
  constructor
  · decide
  · decide

/-- C2, amended: when the split's final fragment is non-empty, the
handler emits NOTHING and the buffer keeps the entire accumulated text
(complete leading lines included — they are re-split and emitted only
once a later chunk completes the line); when the final fragment is empty
the buffer resets and every non-empty line is parsed and emitted in
order (when every such line parses, the emitted list is exactly their
parses, in order).  The final fragment is empty exactly when the
accumulated text is empty or ends with a line terminator. -/
theorem handleData_framing (buffer chunk : String) :
    handleData buffer chunk =
      (if ((splitLines (buffer ++ chunk).data).getLastD []).isEmpty then
        ("", emitAll (splitLines (buffer ++ chunk).data).dropLast)
      else (buffer ++ chunk, [], false)) ∧
    ((splitLines (buffer ++ chunk).data).getLastD []).isEmpty =
      endsWithNL (buffer ++ chunk).data ∧
    (endsWithNL (buffer ++ chunk).data = false →
      handleData buffer chunk = (buffer ++ chunk, [], false)) ∧
    (∀ ms : List IMessage,
      endsWithNL (buffer ++ chunk).data = true →
      ((splitLines (buffer ++ chunk).data).dropLast.filter
          (fun l => l.length != 0)).mapM
        (fun l => parseMessage (String.mk l)) = some ms →
      handleData buffer chunk = ("", ms, false)) := by
  have hchar : ((splitLines (buffer ++ chunk).data).getLastD []).isEmpty =
      endsWithNL (buffer ++ chunk).data := lastFrag_endsWithNL _
  have hmain : handleData buffer chunk =
      (if ((splitLines (buffer ++ chunk).data).getLastD []).isEmpty then
        ("", emitAll (splitLines (buffer ++ chunk).data).dropLast)
      else (buffer ++ chunk, [], false)) := by
    by_cases hemp : ((splitLines (buffer ++ chunk).data).getLastD []).isEmpty = true
    · have hl : (splitLines (buffer ++ chunk).data).getLastD [] = [] := by
        simpa using hemp
      rw [if_pos hemp]
      unfold handleData
      rw [if_neg (show ¬((splitLines (buffer ++ chunk).data).getLastD []).length ≠ 0 from
        fun hc => hc (by rw [hl]; rfl))]
    · have hl : (splitLines (buffer ++ chunk).data).getLastD [] ≠ [] := by
        intro hc
        rw [hc] at hemp
        exact hemp rfl
      rw [if_neg hemp]
      unfold handleData
      rw [if_pos (show ((splitLines (buffer ++ chunk).data).getLastD []).length ≠ 0 from
        fun h0 => hl (List.length_eq_zero.mp h0))]
  refine ⟨hmain, hchar, ?_, ?_⟩
  · intro hend
    have hne : ¬(((splitLines (buffer ++ chunk).data).getLastD []).isEmpty = true) := by
      rw [hchar, hend]
      exact Bool.false_ne_true
    rw [hmain, if_neg hne]
  · intro ms hend hmap
    rw [hmain, if_pos (hchar.trans hend), emitAll_eq_mapM _ ms hmap]

/-! ## C8 — numeric/command normalization -/

/-- The command-normalization invariant of the parse tail: whatever the
lookup table, when the token is a key the message carries the table's
symbolic name and classification, and otherwise `commandType` is
`normal` with `command = rawCommand`. -/
theorem parseRest_command (tbl : String → Option ReplyEntry)
    (pfx nick user host server : Option String) (l : List Char) (m : IMessage)
    (h : parseRest tbl pfx nick user host server l = some m) :
    (∀ e, tbl m.rawCommand = some e →
        m.command = e.name ∧ m.commandType = e.type) ∧
    (tbl m.rawCommand = none →
        m.command = m.rawCommand ∧ m.commandType = CommandType.normal) := by
  simp only [parseRest] at h
  split at h
  · simp at h
  · have hm := Option.some.inj h
    subst hm
    constructor
    · intro e he
      simp only at he
      rcases hl : tbl (String.mk (l.takeWhile (fun c => c ≠ ' '))) with _ | e'
      · rw [hl] at he
        simp at he
      · rw [hl] at he
        have := Option.some.inj he
        subst this
        constructor <;> simp [hl]
    · intro he
      simp only at he
      rw [he]
      constructor <;> simp [he]

/-- C8: for every table and every line whose command token is a key of
the table, `parseMessage` sets `command` to the table's symbolic name and
`commandType` to the table's classification; for a token not in the
table, `commandType` is `normal` and `command` equals `rawCommand`. -/
theorem parseMessage_numeric_normalization
    (tbl : String → Option ReplyEntry) (line : String) (m : IMessage)
    (hparse : parseMessageWith tbl line = some m) :
    (∀ e, tbl m.rawCommand = some e →
        m.command = e.name ∧ m.commandType = e.type) ∧
    (tbl m.rawCommand = none →
        m.command = m.rawCommand ∧ m.commandType = CommandType.normal) := by
  simp only [parseMessageWith] at hparse
  rcases hp : parsePfx line.data with _ | ⟨p, rest⟩
  · rw [hp] at hparse
    exact parseRest_command tbl _ _ _ _ _ _ m hparse
  · rw [hp] at hparse
    simp only [] at hparse
    rcases hu : splitUserHost p with _ | ⟨n, u, hh⟩
    · rw [hu] at hparse
      simp only [] at hparse
      exact parseRest_command tbl _ _ _ _ _ _ m hparse
    · rw [hu] at hparse
      simp only [] at hparse
      exact parseRest_command tbl _ _ _ _ _ _ m hparse

/-- The parse of `:irc.x 433 * bob :Nickname is already in use` under the
spec-modelled table (the C8 witness message). -/
def c8Msg : IMessage :=
  { pfx := some "irc.x", server := some "irc.x",
    command := "err_nicknameinuse", rawCommand := "433",
    commandType := CommandType.error,
    args := ["*", "bob", "Nickname is already in use"] }

/-- C8, witness: a known error numeric (`433`) under the spec-modelled
table. -/
theorem parseMessage_numeric_normalization_witness :
    (∀ e, replyFor c8Msg.rawCommand = some e →
        c8Msg.command = e.name ∧ c8Msg.commandType = e.type) ∧
    (replyFor c8Msg.rawCommand = none →
        c8Msg.command = c8Msg.rawCommand ∧
        c8Msg.commandType = CommandType.normal) :=
  parseMessage_numeric_normalization replyFor
    ":irc.x 433 * bob :Nickname is already in use" c8Msg (by decide)

/-! ## C1 — parser round trip -/

theorem wsColonSplit_cons_neg (c : Char) (hc : jsWs c = false)
    (l : List Char) :
    wsColonSplit (c :: l) = (wsColonSplit l).map (fun p => (c :: p.1, p.2)) := by
  rw [wsColonSplit, if_neg (by simp [hc])]

theorem wsColonSplit_ws_nocolon (c : Char) (hcws : jsWs c = true)
    (l : List Char) (x : Char) (xs : List Char)
    (hd : (c :: l).dropWhile jsWs = x :: xs) (hx : x ≠ ':') :
    wsColonSplit (c :: l) = (wsColonSplit l).map (fun p => (c :: p.1, p.2)) := by
  rw [wsColonSplit, if_pos hcws, hd]
  split
  · rename_i tr heq
    injection heq with h1 _
    exact absurd h1 hx
  · rfl

theorem wsColonSplit_ws_colon (c : Char) (hcws : jsWs c = true)
    (l : List Char) (tr : List Char)
    (hd : (c :: l).dropWhile jsWs = ':' :: tr) :
    wsColonSplit (c :: l) = some ([], tr) := by
  rw [wsColonSplit, if_pos hcws, hd]
  rfl

/-- Pushing a whitespace-free token through the `\s+:` scan. -/
theorem wsColonSplit_token (t : List Char) (ht : ∀ c ∈ t, jsWs c = false)
    (l : List Char) :
    wsColonSplit (t ++ l) =
      (wsColonSplit l).map (fun p => (t ++ p.1, p.2)) := by
  induction t with
  | nil =>
    simp only [List.nil_append]
    cases wsColonSplit l <;> rfl
  | cons c t ih =>
    rw [List.cons_append,
      wsColonSplit_cons_neg c (ht c (List.mem_cons_self c t)),
      ih (fun d hd => ht d (List.mem_cons_of_mem c hd))]
    cases wsColonSplit l <;> rfl

theorem splitSpaces_cons_neg (c : Char) (hc : c ≠ ' ') (l : List Char) :
    splitSpaces (c :: l) = (splitSpaces l).modifyHead (fun t => c :: t) := by
  rw [splitSpaces]
  · exact fun h => absurd h hc

theorem splitSpacesSkip_cons_neg (c : Char) (hc : c ≠ ' ') (l : List Char) :
    splitSpacesSkip (c :: l) = (splitSpaces l).modifyHead (fun t => c :: t) := by
  rw [splitSpacesSkip]
  · exact fun h => absurd h hc

theorem modifyHead_modifyHead (f g : List Char → List Char)
    (l : List (List Char)) :
    (l.modifyHead g).modifyHead f = l.modifyHead (fun x => f (g x)) := by
  cases l <;> rfl

/-- Pushing a space-free token through `split(/ +/)`. -/
theorem splitSpaces_token (t : List Char) (ht : ∀ c ∈ t, c ≠ ' ')
    (l : List Char) :
    splitSpaces (t ++ l) = (splitSpaces l).modifyHead (fun x => t ++ x) := by
  induction t with
  | nil =>
    simp only [List.nil_append]
    cases splitSpaces l <;> simp [List.modifyHead]
  | cons c t ih =>
    rw [List.cons_append,
      splitSpaces_cons_neg c (ht c (List.mem_cons_self c t)),
      ih (fun d hd => ht d (List.mem_cons_of_mem c hd)),
      modifyHead_modifyHead]
    rfl

theorem splitSpaces_nil : splitSpaces [] = [[]] := rfl

/-- A non-empty space-free token splits into itself alone. -/
theorem splitSpaces_single (t : List Char) (ht : ∀ c ∈ t, c ≠ ' ') :
    splitSpaces t = [t] := by
  have := splitSpaces_token t ht []
  rw [List.append_nil] at this
  rw [this, splitSpaces_nil]
  simp [List.modifyHead]

theorem splitParams_not_colon (l : List Char) (h : l.head? ≠ some ':') :
    splitParams l = wsColonSplit l := by
  unfold splitParams
  split
  · rename_i tr
    simp at h
  · rfl

/-- C1: parsing a well-formed line
`:nick!user@host COMMAND a b :trailing text` recovers the prefix
components in `nick`/`user`/`host` and yields
`args = [a, b, trailing]`, the trailing text kept verbatim. -/
theorem parseMessage_roundtrip
    (nick user host cmd a b trailing : String)
    (hnick : ∀ c ∈ nick.data, isNickChar c = true)
    (huser1 : user.data ≠ [])
    (huser2 : ∀ c ∈ user.data, c ≠ '@' ∧ c ≠ ' ')
    (hhost : ∀ c ∈ host.data, c ≠ ' ')
    (hcmd1 : cmd.data ≠ [])
    (hcmd2 : ∀ c ∈ cmd.data, c ≠ ' ')
    (ha1 : a.data ≠ [])
    (ha2 : ∀ c ∈ a.data, jsWs c = false)
    (ha3 : a.data.head? ≠ some ':')
    (hb1 : b.data ≠ [])
    (hb2 : ∀ c ∈ b.data, jsWs c = false)
    (hb3 : b.data.head? ≠ some ':')
    (ht1 : trailing.data ≠ []) :
    (parseMessage (":" ++ nick ++ "!" ++ user ++ "@" ++ host ++ " " ++ cmd ++
        " " ++ a ++ " " ++ b ++ " :" ++ trailing)).map
      (fun m => (m.nick, m.user, m.host, m.args)) =
      some (some nick, some user, some host, [a, b, trailing]) := by
  have hnsp : ∀ c ∈ nick.data, c ≠ ' ' := fun c hc he => by
    subst he
    exact absurd (hnick _ hc) (by decide)
  have hansp : ∀ c ∈ a.data, c ≠ ' ' := fun c hc he => by
    subst he
    exact absurd (ha2 _ hc) (by decide)
  have hbnsp : ∀ c ∈ b.data, c ≠ ' ' := fun c hc he => by
    subst he
    exact absurd (hb2 _ hc) (by decide)
  set P : List Char := nick.data ++ '!' :: (user.data ++ '@' :: host.data)
    with hPdef
  set T : List Char := a.data ++ ' ' :: (b.data ++ ' ' :: ':' :: trailing.data)
    with hTdef
  set R : List Char := cmd.data ++ ' ' :: T with hRdef
  have hPn : ∀ c ∈ P, (fun c => decide (c ≠ ' ')) c = true := by
    intro c hc
    simp only [decide_eq_true_eq]
    rw [hPdef] at hc
    simp only [List.mem_append, List.mem_cons] at hc
    rcases hc with hc | hc | hc
    · exact hnsp c hc
    · subst hc; decide
    · rcases hc with hc | hc
      · exact (huser2 c hc).2
      · rcases hc with hc | hc
        · subst hc; decide
        · exact hhost c hc
  have hdataL : (":" ++ nick ++ "!" ++ user ++ "@" ++ host ++ " " ++ cmd ++
      " " ++ a ++ " " ++ b ++ " :" ++ trailing).data =
      ':' :: (P ++ ' ' :: R) := by
    rw [hPdef, hRdef, hTdef]
    simp [String.data_append]
  have hstep1 : parsePfx (':' :: (P ++ ' ' :: R)) = some (P, R) := by
    simp only [parsePfx]
    rw [takeWhile_boundary hPn (by decide) R, dropWhile_boundary hPn (by decide) R]
    rw [if_neg (by simp [hPdef])]
    rw [List.dropWhile_cons_of_pos (by decide)]
    obtain ⟨c0, cs, hc0⟩ := List.exists_cons_of_ne_nil hcmd1
    have hc0m : c0 ∈ cmd.data := by
      rw [hc0]
      exact List.mem_cons_self _ _
    rw [hRdef, hc0, List.cons_append,
      List.dropWhile_cons_of_neg (by simp [hcmd2 c0 hc0m])]
  have hstep2 : splitUserHost P =
      some (nick.data, some user.data, some host.data) := by
    rw [hPdef]
    simp only [splitUserHost]
    rw [takeWhile_boundary hnick (by decide) _,
      dropWhile_boundary hnick (by decide) _]
    simp only []
    have hu1 : ∀ c ∈ user.data, (fun c => decide (c ≠ '@')) c = true := by
      intro c hc
      simp only [decide_eq_true_eq]
      exact (huser2 c hc).1
    rw [takeWhile_boundary hu1 (by decide) _,
      dropWhile_boundary hu1 (by decide) _]
    rw [if_neg (by simp [huser1])]
    rfl
  have hmiddle : wsColonSplit T =
      some (a.data ++ ' ' :: b.data, trailing.data) := by
    obtain ⟨b0, bs, hb0⟩ := List.exists_cons_of_ne_nil hb1
    have hb0m : b0 ∈ b.data := by
      rw [hb0]
      exact List.mem_cons_self _ _
    have h3 : wsColonSplit (' ' :: ':' :: trailing.data) =
        some ([], trailing.data) :=
      wsColonSplit_ws_colon ' ' (by decide) _ trailing.data
        (by rw [List.dropWhile_cons_of_pos (by decide),
              List.dropWhile_cons_of_neg (by decide)])
    have h2 : wsColonSplit (b.data ++ ' ' :: ':' :: trailing.data) =
        some (b.data, trailing.data) := by
      rw [wsColonSplit_token b.data hb2 _, h3]
      simp
    have h1 : wsColonSplit (' ' :: (b.data ++ ' ' :: ':' :: trailing.data)) =
        some (' ' :: b.data, trailing.data) := by
      have hdws : (' ' :: (b.data ++ ' ' :: ':' :: trailing.data)).dropWhile jsWs =
          b0 :: (bs ++ ' ' :: ':' :: trailing.data) := by
        rw [List.dropWhile_cons_of_pos (by decide), hb0, List.cons_append,
          List.dropWhile_cons_of_neg (by simp [hb2 b0 hb0m])]
      have hbne : b0 ≠ ':' := by
        intro he
        apply hb3
        rw [hb0, he]
        rfl
      rw [wsColonSplit_ws_nocolon ' ' (by decide) _ b0
        (bs ++ ' ' :: ':' :: trailing.data) hdws hbne, h2]
      rfl
    rw [hTdef, wsColonSplit_token a.data ha2 _, h1]
    rfl
  have hsplitSp : splitSpaces (a.data ++ ' ' :: b.data) = [a.data, b.data] := by
    obtain ⟨b0, bs, hb0⟩ := List.exists_cons_of_ne_nil hb1
    have hb0m : b0 ∈ b.data := by
      rw [hb0]
      exact List.mem_cons_self _ _
    rw [splitSpaces_token a.data hansp _]
    rw [show splitSpaces (' ' :: b.data) = [] :: splitSpacesSkip b.data from by
      rw [splitSpaces]]
    rw [hb0, splitSpacesSkip_cons_neg b0 (hbnsp b0 hb0m) bs,
      ← splitSpaces_cons_neg b0 (hbnsp b0 hb0m) bs, ← hb0,
      splitSpaces_single b.data hbnsp]
    simp [List.modifyHead]
  have hstep3 : ∀ pfx nick2 user2 host2 server2,
      (parseRest replyFor pfx nick2 user2 host2 server2 R).map
        (fun m => (m.nick, m.user, m.host, m.args)) =
      some (nick2, user2, host2, [a, b, trailing]) := by
    intro pfx nick2 user2 host2 server2
    have hcn : ∀ c ∈ cmd.data, (fun c => decide (c ≠ ' ')) c = true := by
      intro c hc
      simp only [decide_eq_true_eq]
      exact hcmd2 c hc
    obtain ⟨a0, as, ha0⟩ := List.exists_cons_of_ne_nil ha1
    have ha0m : a0 ∈ a.data := by
      rw [ha0]
      exact List.mem_cons_self _ _
    have hTh : T.head? = some a0 := by
      rw [hTdef, ha0]
      rfl
    have ha0ne : a0 ≠ ':' := fun he => ha3 (by rw [ha0, he]; rfl)
    have hTne : T.head? ≠ some ':' := by
      rw [hTh]
      intro he
      exact ha0ne (Option.some.inj he)
    simp only [parseRest]
    rw [hRdef, takeWhile_boundary hcn (by decide) _,
      dropWhile_boundary hcn (by decide) _]
    rw [if_neg (by simp [hcmd1])]
    rw [if_neg (by simp)]
    rw [List.dropWhile_cons_of_pos (by decide)]
    rw [show T.dropWhile (fun c => decide (c = ' ')) = T from by
      rw [hTdef, ha0, List.cons_append,
        List.dropWhile_cons_of_neg (by simp [hansp a0 ha0m])]]
    rw [splitParams_not_colon T hTne, hmiddle]
    simp only []
    rw [if_neg (show ¬((a.data ++ ' ' :: b.data).isEmpty = true) from by simp)]
    rw [hsplitSp]
    rw [if_neg (show ¬(trailing.data.isEmpty = true) from by simp [ht1])]
    rfl
  unfold parseMessage
  simp only [parseMessageWith]
  rw [hdataL, hstep1]
  simp only []
  rw [hstep2]
  simp only []
  rw [hstep3]
  rfl

/-- C1, witness: the concrete line
`:nick!user@host.example PRIVMSG #chan b4 :trailing text`. -/
theorem parseMessage_roundtrip_witness :
    (parseMessage (":" ++ "nick" ++ "!" ++ "user" ++ "@" ++ "host.example" ++
        " " ++ "PRIVMSG" ++ " " ++ "#chan" ++ " " ++ "b4" ++ " :" ++
        "trailing text")).map
      (fun m => (m.nick, m.user, m.host, m.args)) =
      some (some "nick", some "user", some "host.example",
        ["#chan", "b4", "trailing text"]) :=
  parseMessage_roundtrip "nick" "user" "host.example" "PRIVMSG" "#chan" "b4"
    "trailing text"
    (by decide) (by decide) (by decide) (by decide) (by decide) (by decide)
    (by decide) (by decide) (by decide) (by decide) (by decide) (by decide)
    (by decide)

/-! ## C4 — the long-line splitter -/

theorem orDefault_eq (m : Nat) (h : 0 < m) : orDefault m = m := by
  unfold orDefault
  rw [if_neg (by omega)]

theorem SameShape.refl : ∀ l : List Char, SameShape l l
  | [] => .nil
  | c :: l => .consEq c (SameShape.refl l)

theorem SameShape.append {l1 l2 r1 r2 : List Char}
    (h1 : SameShape l1 l2) (h2 : SameShape r1 r2) :
    SameShape (l1 ++ r1) (l2 ++ r2) := by
  induction h1 with
  | nil => exact h2
  | consEq c _ ih => exact .consEq c ih
  | consWs hc hd _ ih => exact .consWs hc hd ih

theorem splitOnWs_sameShape {s t : List Char} (h : SameShape s t) :
    splitOnWs s = splitOnWs t := by
  induction h with
  | nil => rfl
  | consEq c _ ih =>
    simp only [splitOnWs, ih]
  | consWs hc hd _ ih =>
    simp only [splitOnWs, hc, hd, if_pos, ih]

theorem wordsOf_sameShape {s t : List Char} (h : SameShape s t) :
    wordsOf s = wordsOf t := by
  unfold wordsOf
  rw [splitOnWs_sameShape h]

theorem findWsBack_spec (words : List Char) :
    ∀ i k, findWsBack words i = some k →
      1 ≤ k ∧ k ≤ i ∧ jsWs (words.getD k ' ') = true := by
  intro i
  induction i with
  | zero =>
    intro k h
    simp [findWsBack] at h
  | succ i ih =>
    intro k h
    unfold findWsBack at h
    split at h
    · cases h
      refine ⟨by omega, by omega, by assumption⟩
    · obtain ⟨h1, h2, h3⟩ := ih k h
      exact ⟨h1, by omega, h3⟩

theorem cutPosOf_le (words : List Char) (m : Nat) :
    (cutPosOf words m).1 ≤ m := by
  unfold cutPosOf
  split
  · simp
  · rcases hf : findWsBack words (m - 1) with _ | k
    · simp [hf]
    · obtain ⟨_, h2, _⟩ := findWsBack_spec words (m - 1) k hf
      simp [hf]
      omega

theorem cutPosOf_spec (words : List Char) (m : Nat) (hlen : m < words.length) :
    ((cutPosOf words m).2 = 1 ∧ (cutPosOf words m).1 < words.length ∧
      jsWs (words.getD (cutPosOf words m).1 ' ') = true) ∨
    cutPosOf words m = (m, 0) := by
  unfold cutPosOf
  split
  · rename_i hws
    exact Or.inl ⟨rfl, hlen, hws⟩
  · rcases hf : findWsBack words (m - 1) with _ | k
    · simp [hf]
    · obtain ⟨h1, h2, h3⟩ := findWsBack_spec words (m - 1) k hf
      simp only [hf]
      exact Or.inl ⟨by simp, by omega, h3⟩

theorem splitLongLines_eq_kinds (words : List Char) (m : Nat) :
    ∀ dest, _splitLongLines words m dest =
      dest ++ (splitLongKinds words m).map (fun p => p.1) := by
  induction words, m using splitLongKinds.induct with
  | case1 words m hz =>
    intro dest
    rw [_splitLongLines, splitLongKinds, if_pos hz, if_pos hz]
    simp
  | case2 words m hz hle =>
    intro dest
    rw [_splitLongLines, splitLongKinds, if_neg hz, if_neg hz,
      if_pos hle, if_pos hle]
    simp
  | case3 words m hz hle cut ih =>
    intro dest
    have hc : cut = cutPosOf words (orDefault m) := rfl
    rw [hc] at ih
    rw [_splitLongLines, splitLongKinds, if_neg hz, if_neg hz,
      if_neg hle, if_neg hle]
    simp only []
    rw [ih]
    simp

theorem splitLongKinds_len (words : List Char) (m : Nat) (h : 0 < m) :
    ∀ p ∈ splitLongKinds words m, p.1.length ≤ m := by
  induction words, m using splitLongKinds.induct with
  | case1 words m hz =>
    rw [splitLongKinds, if_pos hz]
    simp
  | case2 words m hz hle =>
    rw [splitLongKinds, if_neg hz, if_pos hle]
    intro p hp
    simp only [List.mem_singleton] at hp
    subst hp
    rw [orDefault_eq m h] at hle
    exact hle
  | case3 words m hz hle cut ih =>
    have hc : cut = cutPosOf words (orDefault m) := rfl
    rw [hc] at ih
    rw [splitLongKinds, if_neg hz, if_neg hle]
    simp only []
    intro p hp
    simp only [List.mem_cons] at hp
    rcases hp with hp | hp
    · subst hp
      simp only [List.length_take]
      have h1 := cutPosOf_le words (orDefault m)
      have h2 := orDefault_eq m h
      omega
    · exact ih h p hp

theorem rejoin_sameShape (words : List Char) (m : Nat) :
    SameShape (rejoinChunks (splitLongKinds words m)) words := by
  induction words, m using splitLongKinds.induct with
  | case1 words m hz =>
    rw [splitLongKinds, if_pos hz]
    rw [List.length_eq_zero.mp hz]
    exact .nil
  | case2 words m hz hle =>
    rw [splitLongKinds, if_neg hz, if_pos hle]
    show SameShape (words ++ [] ++ []) words
    simp only [List.append_nil]
    exact SameShape.refl words
  | case3 words m hz hle cut ih =>
    have hc : cut = cutPosOf words (orDefault m) := rfl
    rw [hc] at ih
    rw [splitLongKinds, if_neg hz, if_neg hle]
    simp only []
    simp only [rejoinChunks]
    have hlen : orDefault m < words.length := by omega
    rcases cutPosOf_spec words (orDefault m) hlen with ⟨h1, h2, h3⟩ | h0
    · rw [if_pos (show (decide ((cutPosOf words (orDefault m)).2 = 1)) = true from
        by simp [h1])]
      rw [h1] at ih ⊢
      have hws : jsWs words[(cutPosOf words (orDefault m)).1] = true := by
        rw [List.getD_eq_getElem words ' ' h2] at h3
        exact h3
      have hgoal : SameShape
          ((words.take (cutPosOf words (orDefault m)).1 ++ [' ']) ++
            rejoinChunks (splitLongKinds
              (words.drop ((cutPosOf words (orDefault m)).1 + 1)) m))
          ((words.take (cutPosOf words (orDefault m)).1 ++
              [words[(cutPosOf words (orDefault m)).1]]) ++
            words.drop ((cutPosOf words (orDefault m)).1 + 1)) := by
        refine SameShape.append (SameShape.append (SameShape.refl _) ?_) ih
        exact SameShape.consWs (by decide) hws .nil
      have hdecomp :
          (words.take (cutPosOf words (orDefault m)).1 ++
              [words[(cutPosOf words (orDefault m)).1]]) ++
            words.drop ((cutPosOf words (orDefault m)).1 + 1) = words := by
        rw [List.append_assoc, List.singleton_append,
          ← List.drop_eq_getElem_cons h2, List.take_append_drop]
      rw [hdecomp] at hgoal
      exact hgoal
    · rw [if_neg (show ¬(decide ((cutPosOf words (orDefault m)).2 = 1)) = true from
        by rw [h0]; simp)]
      rw [h0] at ih ⊢
      have hgoal : SameShape
          (words.take (orDefault m) ++
            rejoinChunks (splitLongKinds (words.drop (orDefault m)) m))
          (words.take (orDefault m) ++ words.drop (orDefault m)) :=
        SameShape.append (SameShape.refl _) (by simpa using ih)
      rw [List.take_append_drop] at hgoal
      simpa using hgoal

/-- C4: every chunk `_splitLongLines` emits has length at most the
(positive) limit, and rejoining the chunks in order — re-inserting a
single space at each cut that dropped a whitespace character — yields a
text with exactly the original word sequence.  (`splitLongKinds` pairs
each chunk of `_splitLongLines` with whether its cut dropped a
whitespace character; the third conjunct ties it to `_splitLongLines`.) -/
theorem splitLongLines_spec (s : String) (maxLength : Nat)
    (h : 0 < maxLength) :
    (∀ chunk ∈ _splitLongLines s.data maxLength [], chunk.length ≤ maxLength) ∧
    wordsOf (rejoinChunks (splitLongKinds s.data maxLength)) = wordsOf s.data ∧
    (splitLongKinds s.data maxLength).map (fun p => p.1) =
      _splitLongLines s.data maxLength [] := by
  refine ⟨?_, wordsOf_sameShape (rejoin_sameShape s.data maxLength), ?_⟩
  · intro chunk hc
    rw [splitLongLines_eq_kinds s.data maxLength [], List.nil_append] at hc
    simp only [List.mem_map] at hc
    obtain ⟨p, hp, rfl⟩ := hc
    exact splitLongKinds_len s.data maxLength h p hp
  · rw [splitLongLines_eq_kinds s.data maxLength [], List.nil_append]

/-- C4, witness: the string `ab cd ef` with limit 4. -/
theorem splitLongLines_spec_witness :
    (∀ chunk ∈ _splitLongLines ("ab cd ef").data 4 [], chunk.length ≤ 4) ∧
    wordsOf (rejoinChunks (splitLongKinds ("ab cd ef").data 4)) =
      wordsOf ("ab cd ef").data ∧
    (splitLongKinds ("ab cd ef").data 4).map (fun p => p.1) =
      _splitLongLines ("ab cd ef").data 4 [] :=
  splitLongLines_spec "ab cd ef" 4 (by decide)

/-! ## C5 — the cycling ping timer -/

theorem advance_stopped (timeoutMs target : Nat) :
    advance timeoutMs ⟨false, none, none⟩ target = (⟨false, none, none⟩, []) :=
  rfl

theorem advance_noFire (timeoutMs d target : Nat) (hd : target < d) :
    advance timeoutMs ⟨true, some d, none⟩ target =
      (⟨true, some d, none⟩, []) := by
  simp only [advance]
  rw [if_neg (by omega : ¬ d ≤ target)]

theorem advance_fire_wantPing (timeoutMs d target : Nat) (h1 : d ≤ target)
    (h2 : target < d + timeoutMs) :
    advance timeoutMs ⟨true, some d, none⟩ target =
      (⟨true, none, some (d + timeoutMs)⟩, [(d, Sig.wantPing)]) := by
  simp only [advance, CyclingPingTimer.fireWantPing]
  rw [if_pos h1, if_neg (by omega : ¬ d + timeoutMs ≤ target)]

theorem advance_fire_both (timeoutMs d target : Nat) (h1 : d ≤ target)
    (h2 : d + timeoutMs ≤ target) :
    advance timeoutMs ⟨true, some d, none⟩ target =
      (⟨false, none, none⟩,
        [(d, Sig.wantPing), (d + timeoutMs, Sig.pingTimeout)]) := by
  simp only [advance, CyclingPingTimer.fireWantPing]
  rw [if_pos h1, if_pos h2]
  rfl

theorem start_from_stopped (silenceMs t : Nat) :
    applyCmd silenceMs t ⟨false, none, none⟩ Cmd.start =
      ⟨true, some (t + silenceMs), none⟩ := rfl

theorem notify_active (silenceMs t d : Nat) :
    applyCmd silenceMs t ⟨true, some d, none⟩ Cmd.activity =
      ⟨true, some (t + silenceMs), none⟩ := rfl

/-- Running the activity chain never fires anything; the timer ends idle
with its deadline set by the last activity. -/
theorem run_acts (silenceMs timeoutMs : Nat) (acts : List Nat) (prev : Nat)
    (suffix : List (Nat × Cmd)) (horizon : Nat)
    (hchain : chainOk silenceMs prev acts) :
    run silenceMs timeoutMs ⟨true, some (prev + silenceMs), none⟩
      (acts.map (fun t => (t, Cmd.activity)) ++ suffix) horizon =
    run silenceMs timeoutMs
      ⟨true, some (lastTime prev acts + silenceMs), none⟩ suffix horizon := by
  induction acts generalizing prev with
  | nil => rfl
  | cons t rest ih =>
    obtain ⟨hlt, hlt2, hchain2⟩ := hchain
    rw [List.map_cons, List.cons_append, run]
    rw [advance_noFire timeoutMs _ t hlt2]
    simp only [notify_active]
    rw [ih t hchain2,
      show lastTime prev (t :: rest) = lastTime t rest from rfl]
    rcases run silenceMs timeoutMs
      ⟨true, some (lastTime t rest + silenceMs), none⟩ suffix horizon with ⟨tmf, sigs⟩
    rfl

theorem timerInv_advance (timeoutMs : Nat) (tm : CyclingPingTimer)
    (target : Nat) (h : timerInv tm = true) :
    timerInv (advance timeoutMs tm target).1 = true := by
  rcases tm with ⟨st, lt, pw⟩
  rcases st
  · rcases lt with _ | d
    · rcases pw with _ | d2
      · exact h
      · exact absurd h (by simp [timerInv])
    · exact absurd h (by simp [timerInv])
  · rcases lt with _ | d
    · rcases pw with _ | d2
      · exact h
      · simp only [advance]
        split_ifs
        · rfl
        · exact h
    · rcases pw with _ | d2
      · simp only [advance, CyclingPingTimer.fireWantPing]
        split_ifs <;> rfl
      · exact absurd h (by simp [timerInv])

theorem timerInv_applyCmd (silenceMs t : Nat) (tm : CyclingPingTimer)
    (c : Cmd) (h : timerInv tm = true) :
    timerInv (applyCmd silenceMs t tm c) = true := by
  rcases tm with ⟨st, lt, pw⟩
  rcases c <;>
    simp only [applyCmd, CyclingPingTimer.start, CyclingPingTimer.stop,
      CyclingPingTimer.notifyOfActivity, timerInv] at h ⊢ <;>
    rcases st <;>
    simp_all [timerInv, CyclingPingTimer.start, CyclingPingTimer.stop]

theorem timerInv_run (silenceMs timeoutMs : Nat) (tm : CyclingPingTimer)
    (trace : List (Nat × Cmd)) (horizon : Nat) (h : timerInv tm = true) :
    timerInv (run silenceMs timeoutMs tm trace horizon).1 = true := by
  induction trace generalizing tm with
  | nil => exact timerInv_advance timeoutMs tm horizon h
  | cons p rest ih =>
    rw [run]
    exact ih _ (timerInv_applyCmd _ _ _ _ (timerInv_advance _ _ _ h))

/-- C5: from `start()` at `t0`, a chain of `notifyOfActivity()` calls each
before the current idle deadline emits nothing as long as the idle
interval has not elapsed after the last activity; with no further
activity exactly one `wantPing` fires at `lastActivity + idle` and then
exactly one `pingTimeout` at `+ wait`; a `stop()` strictly between those
two instants leaves `wantPing` as the only signal; and every state
reachable by any command trace from a fresh timer has at most one of the
two timeouts armed (and nothing armed when stopped). -/
theorem cyclingPingTimer_law (silenceMs timeoutMs t0 : Nat)
    (acts : List Nat) (h1 h2 hstop2 ts h3 : Nat)
    (anyTrace : List (Nat × Cmd))
    (hchain : chainOk silenceMs t0 acts)
    (hh1 : h1 < lastTime t0 acts + silenceMs)
    (hh2 : lastTime t0 acts + silenceMs + timeoutMs ≤ h2)
    (hts1 : lastTime t0 acts + silenceMs < ts)
    (hts2 : ts < lastTime t0 acts + silenceMs + timeoutMs) :
    (run silenceMs timeoutMs initTimer
      ((t0, Cmd.start) :: acts.map (fun t => (t, Cmd.activity))) h1).2 = [] ∧
    (run silenceMs timeoutMs initTimer
      ((t0, Cmd.start) :: acts.map (fun t => (t, Cmd.activity))) h2).2 =
      [(lastTime t0 acts + silenceMs, Sig.wantPing),
       (lastTime t0 acts + silenceMs + timeoutMs, Sig.pingTimeout)] ∧
    (run silenceMs timeoutMs initTimer
      (((t0, Cmd.start) :: acts.map (fun t => (t, Cmd.activity))) ++
        [(ts, Cmd.stop)]) hstop2).2 =
      [(lastTime t0 acts + silenceMs, Sig.wantPing)] ∧
    timerInv (run silenceMs timeoutMs initTimer anyTrace h3).1 = true := by
  have hfirst : ∀ (rest : List (Nat × Cmd)) (hor : Nat),
      run silenceMs timeoutMs initTimer ((t0, Cmd.start) :: rest) hor =
      run silenceMs timeoutMs ⟨true, some (t0 + silenceMs), none⟩ rest hor := by
    intro rest hor
    rw [run]
    rw [show advance timeoutMs initTimer t0 = (⟨false, none, none⟩, []) from rfl]
    simp only [start_from_stopped]
    rcases run silenceMs timeoutMs ⟨true, some (t0 + silenceMs), none⟩ rest hor
      with ⟨tmf, sigs⟩
    rfl
  refine ⟨?_, ?_, ?_, timerInv_run _ _ _ _ _ rfl⟩
  · rw [hfirst, show acts.map (fun t => (t, Cmd.activity)) =
        acts.map (fun t => (t, Cmd.activity)) ++ [] from by simp,
      run_acts silenceMs timeoutMs acts t0 [] h1 hchain, run,
      advance_noFire timeoutMs _ h1 hh1]
  · rw [hfirst, show acts.map (fun t => (t, Cmd.activity)) =
        acts.map (fun t => (t, Cmd.activity)) ++ [] from by simp,
      run_acts silenceMs timeoutMs acts t0 [] h2 hchain, run,
      advance_fire_both timeoutMs _ h2 (by omega) hh2]
  · rw [List.cons_append, hfirst,
      run_acts silenceMs timeoutMs acts t0 [(ts, Cmd.stop)] hstop2 hchain, run,
      advance_fire_wantPing timeoutMs _ ts (by omega) hts2]
    simp only [applyCmd, CyclingPingTimer.stop]
    rw [if_neg (by decide : ¬ ((!true) = true))]
    rw [show run silenceMs timeoutMs ⟨false, none, none⟩ [] hstop2 =
      (⟨false, none, none⟩, []) from rfl]
    simp

/-- C5, witness: idle 4, wait 3, start at 0, activities at 2 and 5, so
`wantPing` is due at 9 and `pingTimeout` at 12; a `stop()` at 10 cancels
the timeout. -/
theorem cyclingPingTimer_law_witness :
    (run 4 3 initTimer
      ((0, Cmd.start) :: [2, 5].map (fun t => (t, Cmd.activity))) 8).2 = [] ∧
    (run 4 3 initTimer
      ((0, Cmd.start) :: [2, 5].map (fun t => (t, Cmd.activity))) 20).2 =
      [(lastTime 0 [2, 5] + 4, Sig.wantPing),
       (lastTime 0 [2, 5] + 4 + 3, Sig.pingTimeout)] ∧
    (run 4 3 initTimer
      (((0, Cmd.start) :: [2, 5].map (fun t => (t, Cmd.activity))) ++
        [(10, Cmd.stop)]) 20).2 =
      [(lastTime 0 [2, 5] + 4, Sig.wantPing)] ∧
    timerInv (run 4 3 initTimer [(0, Cmd.start), (7, Cmd.activity)] 30).1 = true :=
  cyclingPingTimer_law 4 3 0 [2, 5] 8 20 20 10 30
    [(0, Cmd.start), (7, Cmd.activity)]
    (by decide) (by decide) (by decide) (by decide) (by decide)

end IrcTs
